import Mathlib

/-!
SingleLinkedList (single-linked-list.h): a verification development.

The container is a chain of heap nodes hanging off a sentinel `head_` that is
embedded in the list object, plus a `size_t` counter.  The embedding passes the
heap explicitly:

* a heap maps the non-null 64-bit addresses to the node that lives there;
* `new Node(..)` asks an allocator for an address that is not in use and may
  fail (`std::bad_alloc`);
* a member function takes the heap and the list object (`*this`) and returns
  an `Outcome`: the new heap and object, or the exception together with the
  state it leaves, or the fact that the C++ program has run into undefined
  behaviour (null or dangling dereference, double delete);
* `size_` is a natural number and `++size_`, `--size_` are taken modulo `2^64`;
* loops whose trip count depends on the heap carry a fuel argument, and the
  theorems show that more fuel than the list has elements is enough;
* `operator=` compares object identities, so it runs on a `Memory` that holds
  the list objects under their identity next to the heap.
-/

namespace SLL

/-! ## Data model -/

/-- `size_t` is a 64-bit unsigned integer: arithmetic on it is modulo `SIZE_MOD`. -/
def SIZE_MOD : Nat := 2 ^ 64

/-- The address of a heap node: one of the `2^64 - 1` non-null pointer values. -/
abbrev Addr := Fin (2 ^ 64 - 1)

/-- The value of a `next_node` field: `nullptr` (`none`) or the address of a heap node.
No statement of the class ever stores `&head_` into such a field. -/
abbrev Link := Option Addr

/-- A `Node*` held by an iterator or by the cursor of a constructor: `nullptr`,
the sentinel `&head_` of the list at hand, or a heap node. -/
inductive Ptr where
  | null : Ptr
  | head : Ptr
  | node (a : Addr) : Ptr
  deriving DecidableEq

/-- A `next_node` value read as a `Node*`. -/
def Link.toPtr : Link → Ptr
  | none => Ptr.null
  | some a => Ptr.node a

/-- `struct Node`: a value and the link to the next node. -/
structure Node (α : Type) where
  value : α
  next_node : Link

/-- The free store: the node living at each address, `none` where no node lives. -/
abbrev Heap (α : Type) := Addr → Option (Node α)

/-- The heap with the cell at `a` replaced. -/
def Heap.set {α : Type} (h : Heap α) (a : Addr) (c : Option (Node α)) : Heap α :=
  fun b => if b = a then c else h b

/-- The sentinel `head_`: a `Node` whose value is never an element; only its link matters. -/
structure Sentinel where
  next_node : Link
  deriving DecidableEq

/-- The data members of `SingleLinkedList<Type>`. -/
structure SingleLinkedList where
  size_ : Nat
  head_ : Sentinel
  deriving DecidableEq

/-- `BasicIterator<ValueType>`: a single `Node*`. `Iterator` and `ConstIterator`
differ only in the constness of the reference they hand out. -/
structure BasicIterator where
  node_ : Ptr
  deriving DecidableEq

/-- What `operator new` may do: hand out an address at which no node lives, or
fail (`none`, the C++ `std::bad_alloc`). -/
structure Allocator (α : Type) where
  pick : Heap α → Option Addr
  pick_free : ∀ (h : Heap α) (a : Addr), pick h = some a → h a = none

/-- How a call ends. `ok s r`: it returns `r` in state `s`. `bad_alloc s`: an
allocation failed and the exception leaves the call in state `s`.
`undefined`: the C++ program has undefined behaviour. `out_of_fuel`: the loop
budget of the model ran out. -/
inductive Outcome (σ ρ : Type) where
  | ok (s : σ) (r : ρ) : Outcome σ ρ
  | bad_alloc (s : σ) : Outcome σ ρ
  | undefined : Outcome σ ρ
  | out_of_fuel : Outcome σ ρ

/-- How a read-only traversal can go wrong. -/
inductive Fault where
  | undefined : Fault
  | out_of_fuel : Fault
  deriving DecidableEq

/-! ## Memory access -/

/-- `new Node(val, next)`: the heap with the new node, and its address. -/
def new_node {α : Type} (A : Allocator α) (h : Heap α) (val : α) (next : Link) :
    Option (Heap α × Addr) :=
  match A.pick h with
  | none => none
  | some a => some (h.set a (some ⟨val, next⟩), a)

/-- `delete p` for a node of the chain: the node must be live. -/
def delete_node {α : Type} (h : Heap α) (p : Link) : Option (Heap α) :=
  match p with
  | none => some h
  | some a =>
    match h a with
    | none => none
    | some _ => some (h.set a none)

/-- Reading `p->next_node`; `none` when `p` is null or dangling. -/
def read_next {α : Type} (h : Heap α) (l : SingleLinkedList) : Ptr → Option Link
  | Ptr.null => none
  | Ptr.head => some l.head_.next_node
  | Ptr.node a =>
    match h a with
    | none => none
    | some nd => some nd.next_node

/-- Reading `p->value`; `none` when `p` is null, dangling or the sentinel
(whose value is not an element of the list). -/
def read_value {α : Type} (h : Heap α) : Ptr → Option α
  | Ptr.null => none
  | Ptr.head => none
  | Ptr.node a =>
    match h a with
    | none => none
    | some nd => some nd.value

/-- Writing `p->next_node = next`; `none` when `p` is null or dangling. -/
def write_next {α : Type} (h : Heap α) (l : SingleLinkedList) (p : Ptr) (next : Link) :
    Option (Heap α × SingleLinkedList) :=
  match p with
  | Ptr.null => none
  | Ptr.head => some (h, { l with head_ := ⟨next⟩ })
  | Ptr.node a =>
    match h a with
    | none => none
    | some nd => some (h.set a (some { nd with next_node := next }), l)

/-! ## Iterators -/

/-- `BasicIterator::operator++`: `node_ = node_->next_node`. -/
def BasicIterator.inc {α : Type} (h : Heap α) (l : SingleLinkedList) (it : BasicIterator) :
    Except Fault BasicIterator :=
  match read_next h l it.node_ with
  | none => Except.error Fault.undefined
  | some nxt => Except.ok ⟨nxt.toPtr⟩

/-- `BasicIterator::operator*`: `node_->value`. -/
def BasicIterator.deref {α : Type} (h : Heap α) (it : BasicIterator) : Except Fault α :=
  match read_value h it.node_ with
  | none => Except.error Fault.undefined
  | some v => Except.ok v

/-! ## The list -/

/-- `SingleLinkedList()`: size 0, `head_.next_node == nullptr`. -/
def SingleLinkedList.empty : SingleLinkedList := ⟨0, ⟨none⟩⟩

/-- `GetSize()`. -/
def SingleLinkedList.GetSize (l : SingleLinkedList) : Nat := l.size_

/-- `IsEmpty()`. -/
def SingleLinkedList.IsEmpty (l : SingleLinkedList) : Bool := l.size_ == 0

/-- `end()` / `cend()`: `Iterator{nullptr}`. -/
def SingleLinkedList.end_ (_l : SingleLinkedList) : BasicIterator := ⟨Ptr.null⟩

/-- `begin()` / `cbegin()`: `Iterator{head_.next_node}` when `size_` is non-zero, else `end()`. -/
def SingleLinkedList.begin (l : SingleLinkedList) : BasicIterator :=
  if l.size_ ≠ 0 then ⟨l.head_.next_node.toPtr⟩ else l.end_

/-- `before_begin()` / `cbefore_begin()`: `Iterator{&head_}`. -/
def SingleLinkedList.before_begin (_l : SingleLinkedList) : BasicIterator := ⟨Ptr.head⟩

/-- `PushFront`: `head_.next_node = new Node(value, head_.next_node); ++size_;`. -/
def SingleLinkedList.PushFront {α : Type} (A : Allocator α) (h : Heap α)
    (l : SingleLinkedList) (value : α) : Outcome (Heap α × SingleLinkedList) Unit :=
  match new_node A h value l.head_.next_node with
  | none => Outcome.bad_alloc (h, l)
  | some (h1, a) =>
    Outcome.ok (h1, { size_ := (l.size_ + 1) % SIZE_MOD, head_ := ⟨some a⟩ }) ()

/-- `InsertAfter(pos, value)`:
`pos.node_->next_node = new Node(value, pos.node_->next_node); ++size_;
return Iterator{pos.node_->next_node};`. -/
def SingleLinkedList.InsertAfter {α : Type} (A : Allocator α) (h : Heap α)
    (l : SingleLinkedList) (pos : BasicIterator) (value : α) :
    Outcome (Heap α × SingleLinkedList) BasicIterator :=
  match read_next h l pos.node_ with
  | none => Outcome.undefined
  | some old_next =>
    match new_node A h value old_next with
    | none => Outcome.bad_alloc (h, l)
    | some (h1, a) =>
      match write_next h1 l pos.node_ (some a) with
      | none => Outcome.undefined
      | some (h2, l2) =>
        let l3 : SingleLinkedList := { l2 with size_ := (l2.size_ + 1) % SIZE_MOD }
        match read_next h2 l3 pos.node_ with
        | none => Outcome.undefined
        | some r => Outcome.ok (h2, l3) ⟨r.toPtr⟩

/-- `EraseAfter(pos)`:
`auto temp = pos.node_->next_node->next_node; delete pos.node_->next_node;
pos.node_->next_node = temp; --size_; return Iterator{pos.node_->next_node};`. -/
def SingleLinkedList.EraseAfter {α : Type} (h : Heap α) (l : SingleLinkedList)
    (pos : BasicIterator) : Outcome (Heap α × SingleLinkedList) BasicIterator :=
  match read_next h l pos.node_ with
  | none => Outcome.undefined
  | some victim =>
    match read_next h l victim.toPtr with
    | none => Outcome.undefined
    | some temp =>
      match delete_node h victim with
      | none => Outcome.undefined
      | some h1 =>
        match write_next h1 l pos.node_ temp with
        | none => Outcome.undefined
        | some (h2, l2) =>
          let l3 : SingleLinkedList :=
            { l2 with size_ := (l2.size_ + SIZE_MOD - 1) % SIZE_MOD }
          match read_next h2 l3 pos.node_ with
          | none => Outcome.undefined
          | some r => Outcome.ok (h2, l3) ⟨r.toPtr⟩

/-- `PopFront()`: `if (size_ == 0) return; EraseAfter(Iterator{&head_});`. -/
def SingleLinkedList.PopFront {α : Type} (h : Heap α) (l : SingleLinkedList) :
    Outcome (Heap α × SingleLinkedList) Unit :=
  if l.size_ = 0 then Outcome.ok (h, l) ()
  else
    match SingleLinkedList.EraseAfter h l ⟨Ptr.head⟩ with
    | Outcome.ok s _ => Outcome.ok s ()
    | Outcome.bad_alloc s => Outcome.bad_alloc s
    | Outcome.undefined => Outcome.undefined
    | Outcome.out_of_fuel => Outcome.out_of_fuel

/-- The loop of `Clear()`: `while (current_node != nullptr) { nextNode =
current_node->next_node; delete current_node; current_node = nextNode; }`. -/
def clear_loop {α : Type} (l : SingleLinkedList) : Nat → Heap α → Link → Outcome (Heap α) Unit
  | 0, _, _ => Outcome.out_of_fuel
  | fuel + 1, h, current_node =>
    if current_node = none then Outcome.ok h ()
    else
      match read_next h l current_node.toPtr with
      | none => Outcome.undefined
      | some nextNode =>
        match delete_node h current_node with
        | none => Outcome.undefined
        | some h1 => clear_loop l fuel h1 nextNode

/-- `Clear()`: the loop from `head_.next_node`, then `head_.next_node = nullptr; size_ = 0;`. -/
def SingleLinkedList.Clear {α : Type} (fuel : Nat) (h : Heap α) (l : SingleLinkedList) :
    Outcome (Heap α × SingleLinkedList) Unit :=
  match clear_loop l fuel h l.head_.next_node with
  | Outcome.ok h1 _ => Outcome.ok (h1, { size_ := 0, head_ := ⟨none⟩ }) ()
  | Outcome.bad_alloc h1 => Outcome.bad_alloc (h1, l)
  | Outcome.undefined => Outcome.undefined
  | Outcome.out_of_fuel => Outcome.out_of_fuel

/-- The loop of the initializer-list constructor. `cur_node` (a `Node**`) is
kept as the node whose `next_node` field it points to:
`*cur_node = new Node(value, nullptr); cur_node = &((*cur_node)->next_node);`. -/
def init_loop {α : Type} (A : Allocator α) :
    List α → Heap α → SingleLinkedList → Ptr → Outcome (Heap α × SingleLinkedList) Unit
  | [], h, l, _ => Outcome.ok (h, l) ()
  | value :: rest, h, l, cur_node =>
    match new_node A h value none with
    | none => Outcome.bad_alloc (h, l)
    | some (h1, a) =>
      match write_next h1 l cur_node (some a) with
      | none => Outcome.undefined
      | some (h2, l2) =>
        match read_next h2 l2 cur_node with
        | none => Outcome.undefined
        | some c => init_loop A rest h2 l2 c.toPtr

/-- `SingleLinkedList(std::initializer_list<Type> values)`: `size_(values.size())`,
then the loop from `&head_.next_node`. An exception ends the construction:
only the heap is left. -/
def SingleLinkedList.from_initializer_list {α : Type} (A : Allocator α) (h : Heap α)
    (values : List α) : Outcome (Heap α) SingleLinkedList :=
  match init_loop A values h { size_ := values.length % SIZE_MOD, head_ := ⟨none⟩ } Ptr.head with
  | Outcome.ok (h1, l) _ => Outcome.ok h1 l
  | Outcome.bad_alloc (h1, _) => Outcome.bad_alloc h1
  | Outcome.undefined => Outcome.undefined
  | Outcome.out_of_fuel => Outcome.out_of_fuel

/-- The loop of the copy constructor: `while (other_node != nullptr) { *cur_node =
new Node(other_node->value, nullptr); cur_node = &((*cur_node)->next_node);
other_node = other_node->next_node; }`. -/
def copy_loop {α : Type} (A : Allocator α) (other : SingleLinkedList) :
    Nat → Heap α → SingleLinkedList → Ptr → Link → Outcome (Heap α × SingleLinkedList) Unit
  | 0, _, _, _, _ => Outcome.out_of_fuel
  | fuel + 1, h, l, cur_node, other_node =>
    if other_node = none then Outcome.ok (h, l) ()
    else
      match read_value h other_node.toPtr with
      | none => Outcome.undefined
      | some v =>
        match new_node A h v none with
        | none => Outcome.bad_alloc (h, l)
        | some (h1, a) =>
          match write_next h1 l cur_node (some a) with
          | none => Outcome.undefined
          | some (h2, l2) =>
            match read_next h2 l2 cur_node with
            | none => Outcome.undefined
            | some c =>
              match read_next h2 other other_node.toPtr with
              | none => Outcome.undefined
              | some o => copy_loop A other fuel h2 l2 c.toPtr o

/-- `SingleLinkedList(const SingleLinkedList &other)`: `size_(other.size_)`, then
the loop from `&head_.next_node` and `other.head_.next_node`. -/
def SingleLinkedList.copy {α : Type} (A : Allocator α) (fuel : Nat) (h : Heap α)
    (other : SingleLinkedList) : Outcome (Heap α) SingleLinkedList :=
  match copy_loop A other fuel h { size_ := other.size_, head_ := ⟨none⟩ } Ptr.head
      other.head_.next_node with
  | Outcome.ok (h1, l) _ => Outcome.ok h1 l
  | Outcome.bad_alloc (h1, _) => Outcome.bad_alloc h1
  | Outcome.undefined => Outcome.undefined
  | Outcome.out_of_fuel => Outcome.out_of_fuel

/-- Member `swap(other)`: `std::swap(head_.next_node, other.head_.next_node);
std::swap(size_, other.size_);`. Returns the new `*this` and the new `other`. -/
def SingleLinkedList.swap (l other : SingleLinkedList) : SingleLinkedList × SingleLinkedList :=
  ({ size_ := other.size_, head_ := ⟨other.head_.next_node⟩ },
   { size_ := l.size_, head_ := ⟨l.head_.next_node⟩ })

/-- The heap together with the list objects of the program, each under its
identity (the address of the object). -/
structure Memory (α : Type) where
  heap : Heap α
  lists : Nat → SingleLinkedList

/-- The object at `this` replaced. -/
def Memory.put {α : Type} (m : Memory α) (heap : Heap α) (this : Nat) (l : SingleLinkedList) :
    Memory α :=
  ⟨heap, fun i => if i = this then l else m.lists i⟩

/-- `operator=(rhs)`: `if (this != &rhs) { SingleLinkedList temp(rhs); swap(temp); }`,
with the destructor of `temp` (which is `Clear()`) at the end of the block. -/
def operator_assign {α : Type} (A : Allocator α) (fuel : Nat) (m : Memory α) (this rhs : Nat) :
    Outcome (Memory α) Unit :=
  if this ≠ rhs then
    match SingleLinkedList.copy A fuel m.heap (m.lists rhs) with
    | Outcome.ok h1 temp =>
      match SingleLinkedList.Clear fuel h1 ((m.lists this).swap temp).2 with
      | Outcome.ok (h2, _) _ => Outcome.ok (m.put h2 this ((m.lists this).swap temp).1) ()
      | Outcome.bad_alloc (h2, _) => Outcome.bad_alloc (m.put h2 this ((m.lists this).swap temp).1)
      | Outcome.undefined => Outcome.undefined
      | Outcome.out_of_fuel => Outcome.out_of_fuel
    | Outcome.bad_alloc h1 => Outcome.bad_alloc ⟨h1, m.lists⟩
    | Outcome.undefined => Outcome.undefined
    | Outcome.out_of_fuel => Outcome.out_of_fuel
  else Outcome.ok m ()

/-! ## Traversal and comparison -/

/-- The loop `for (it = ..; it != end(); ++it) out.push_back(*it);`. -/
def collect {α : Type} (h : Heap α) (l : SingleLinkedList) :
    Nat → BasicIterator → Except Fault (List α)
  | 0, _ => Except.error Fault.out_of_fuel
  | fuel + 1, it =>
    if it = l.end_ then Except.ok []
    else
      match it.deref h with
      | Except.error e => Except.error e
      | Except.ok v =>
        match it.inc h l with
        | Except.error e => Except.error e
        | Except.ok it1 =>
          match collect h l fuel it1 with
          | Except.error e => Except.error e
          | Except.ok vs => Except.ok (v :: vs)

/-- The values met when iterating from `begin()` to `end()`. -/
def SingleLinkedList.iterate {α : Type} (fuel : Nat) (h : Heap α) (l : SingleLinkedList) :
    Except Fault (List α) :=
  collect h l fuel l.begin

/-- The iterator `it` after `n` applications of `operator++`. -/
def advance {α : Type} (h : Heap α) (l : SingleLinkedList) :
    Nat → BasicIterator → Except Fault BasicIterator
  | 0, it => Except.ok it
  | n + 1, it =>
    match it.inc h l with
    | Except.error e => Except.error e
    | Except.ok it1 => advance h l n it1

/-- The loop of `operator==`: `for (..; lhs_it != lhs.end(); ++lhs_it, ++rhs_it)
if (*lhs_it != *rhs_it) return false;`, then `return true`. `ne` is `operator!=`
of the element type. -/
def eq_loop {α : Type} (ne : α → α → Bool) (h : Heap α) (lhs rhs : SingleLinkedList) :
    Nat → BasicIterator → BasicIterator → Except Fault Bool
  | 0, _, _ => Except.error Fault.out_of_fuel
  | fuel + 1, lhs_it, rhs_it =>
    if lhs_it ≠ lhs.end_ then
      match lhs_it.deref h with
      | Except.error e => Except.error e
      | Except.ok x =>
        match rhs_it.deref h with
        | Except.error e => Except.error e
        | Except.ok y =>
          if ne x y then Except.ok false
          else
            match lhs_it.inc h lhs with
            | Except.error e => Except.error e
            | Except.ok lhs_it1 =>
              match rhs_it.inc h rhs with
              | Except.error e => Except.error e
              | Except.ok rhs_it1 => eq_loop ne h lhs rhs fuel lhs_it1 rhs_it1
    else Except.ok true

/-- `operator==(lhs, rhs)`: `false` when the sizes differ, else the loop from the two `begin()`. -/
def operator_eq {α : Type} (ne : α → α → Bool) (fuel : Nat) (h : Heap α)
    (lhs rhs : SingleLinkedList) : Except Fault Bool :=
  if lhs.GetSize ≠ rhs.GetSize then Except.ok false
  else eq_loop ne h lhs rhs fuel lhs.begin rhs.begin

/-- `operator!=(lhs, rhs)`: `!(lhs == rhs)`. -/
def operator_ne {α : Type} (ne : α → α → Bool) (fuel : Nat) (h : Heap α)
    (lhs rhs : SingleLinkedList) : Except Fault Bool :=
  match operator_eq ne fuel h lhs rhs with
  | Except.error e => Except.error e
  | Except.ok b => Except.ok (!b)

/-- The loop of `operator<`: `for (..; lhs_it != lhs.end() && rhs_it != rhs.end();
++lhs_it, ++rhs_it) { if (*lhs_it < *rhs_it) return true; if (*lhs_it > *rhs_it)
return false; }`, then `return lhs.GetSize() < rhs.GetSize()`. `lt` and `gt` are
`operator<` and `operator>` of the element type. -/
def lt_loop {α : Type} (lt gt : α → α → Bool) (h : Heap α) (lhs rhs : SingleLinkedList) :
    Nat → BasicIterator → BasicIterator → Except Fault Bool
  | 0, _, _ => Except.error Fault.out_of_fuel
  | fuel + 1, lhs_it, rhs_it =>
    if lhs_it ≠ lhs.end_ ∧ rhs_it ≠ rhs.end_ then
      match lhs_it.deref h with
      | Except.error e => Except.error e
      | Except.ok x =>
        match rhs_it.deref h with
        | Except.error e => Except.error e
        | Except.ok y =>
          if lt x y then Except.ok true
          else if gt x y then Except.ok false
          else
            match lhs_it.inc h lhs with
            | Except.error e => Except.error e
            | Except.ok lhs_it1 =>
              match rhs_it.inc h rhs with
              | Except.error e => Except.error e
              | Except.ok rhs_it1 => lt_loop lt gt h lhs rhs fuel lhs_it1 rhs_it1
    else Except.ok (decide (lhs.GetSize < rhs.GetSize))

/-- `operator<(lhs, rhs)`: the loop from the two `begin()`. -/
def operator_lt {α : Type} (lt gt : α → α → Bool) (fuel : Nat) (h : Heap α)
    (lhs rhs : SingleLinkedList) : Except Fault Bool :=
  lt_loop lt gt h lhs rhs fuel lhs.begin rhs.begin

/-- `operator<=(lhs, rhs)`: `!(rhs < lhs)`. -/
def operator_le {α : Type} (lt gt : α → α → Bool) (fuel : Nat) (h : Heap α)
    (lhs rhs : SingleLinkedList) : Except Fault Bool :=
  match operator_lt lt gt fuel h rhs lhs with
  | Except.error e => Except.error e
  | Except.ok b => Except.ok (!b)

/-- `operator>(lhs, rhs)`: `rhs < lhs`. -/
def operator_gt {α : Type} (lt gt : α → α → Bool) (fuel : Nat) (h : Heap α)
    (lhs rhs : SingleLinkedList) : Except Fault Bool :=
  operator_lt lt gt fuel h rhs lhs

/-- `operator>=(lhs, rhs)`: `!(lhs < rhs)`. -/
def operator_ge {α : Type} (lt gt : α → α → Bool) (fuel : Nat) (h : Heap α)
    (lhs rhs : SingleLinkedList) : Except Fault Bool :=
  match operator_lt lt gt fuel h lhs rhs with
  | Except.error e => Except.error e
  | Except.ok b => Except.ok (!b)

/-- `cend()`: `Iterator{nullptr}`. -/
def SingleLinkedList.cend (_l : SingleLinkedList) : BasicIterator := ⟨Ptr.null⟩

/-- `cbegin()`: `Iterator{head_.next_node}` when `size_` is non-zero, else `cend()`. -/
def SingleLinkedList.cbegin (l : SingleLinkedList) : BasicIterator :=
  if l.size_ ≠ 0 then ⟨l.head_.next_node.toPtr⟩ else l.cend

/-- `cbefore_begin()`: `ConstIterator{const_cast<Node*>(&head_)}`. -/
def SingleLinkedList.cbefore_begin (_l : SingleLinkedList) : BasicIterator := ⟨Ptr.head⟩

/-- Member `swap(other)` on two objects of the memory, which may be one and
the same object: both are read, exchanged, and written back. -/
def member_swap {α : Type} (m : Memory α) (this other : Nat) : Memory α :=
  (m.put m.heap this ((m.lists this).swap (m.lists other)).1).put m.heap other
    ((m.lists this).swap (m.lists other)).2

/-- The free function `swap(lhs, rhs)`: `lhs.swap(rhs)`. -/
def swap {α : Type} (m : Memory α) (lhs rhs : Nat) : Memory α :=
  member_swap m lhs rhs

/-! ## Well-formed lists -/

/-- A list segment: following the links from `p` visits the live nodes at
addresses `as`, which hold the values `xs` in this order, and the last of them
(or `p` itself, when there is none) links to `q`. -/
def Seg {α : Type} (h : Heap α) : Link → List Addr → List α → Link → Prop
  | p, [], [], q => p = q
  | p, a :: as, x :: xs, q => p = some a ∧ ∃ nxt, h a = some ⟨x, nxt⟩ ∧ Seg h nxt as xs q
  | _, _, _, _ => False

/-- A chain: a segment that ends in `nullptr`. -/
def Chain {α : Type} (h : Heap α) (p : Link) (as : List Addr) (xs : List α) : Prop :=
  Seg h p as xs none

/-- The list object `l` is well formed in heap `h`, with its nodes at `as` and
element sequence `xs`: the sentinel starts a null-terminated chain of live
nodes and `size_` is the number of nodes. -/
def WellFormed {α : Type} (h : Heap α) (l : SingleLinkedList) (as : List Addr) (xs : List α) :
    Prop :=
  l.size_ = xs.length ∧ Chain h l.head_.next_node as xs

/-- The size invariant of the specification: `size_` is the number of nodes
reached by following the links from the sentinel until `nullptr`. -/
def SizeInvariant {α : Type} (h : Heap α) (l : SingleLinkedList) : Prop :=
  ∃ (as : List Addr) (xs : List α), Chain h l.head_.next_node as xs ∧ l.size_ = as.length

/-- What the loop of `operator<` computes, on the two element sequences: the
first pair that `lt` or `gt` separates decides; when one sequence runs out,
the shorter one is the lesser. -/
def lexLt {α : Type} (lt gt : α → α → Bool) : List α → List α → Bool
  | [], [] => false
  | [], _ :: _ => true
  | _ :: _, [] => false
  | x :: xs, y :: ys => if lt x y then true else if gt x y then false else lexLt lt gt xs ys

/-- The index of the first pair of elements that `ne` tells apart, if there is one. -/
def first_diff {α : Type} (ne : α → α → Bool) : List α → List α → Option Nat
  | x :: xs, y :: ys => if ne x y then some 0 else (first_diff ne xs ys).map (· + 1)
  | _, _ => none

/-- The `operator<` of a linearly ordered element type. -/
def elem_lt {α : Type} [LinearOrder α] (x y : α) : Bool := decide (x < y)

/-- The `operator>` of a linearly ordered element type. -/
def elem_gt {α : Type} [LinearOrder α] (x y : α) : Bool := decide (y < x)

/-- The `operator!=` of an element type with decidable equality. -/
def elem_ne {α : Type} [DecidableEq α] (x y : α) : Bool := decide (x ≠ y)

/-- The node a position refers to: position 0 is `before_begin()`, position
`i + 1` the node of the element of index `i`, and one past the last is `end()`. -/
def position (as : List Addr) : Nat → BasicIterator
  | 0 => ⟨Ptr.head⟩
  | i + 1 => ⟨Link.toPtr as[i]?⟩

/-! ## A concrete free store, for running the code on examples -/

/-- The first address of `cands` at which no node lives. -/
def first_free {α : Type} (h : Heap α) : List Addr → Option Addr
  | [] => none
  | a :: cands => if (h a).isNone then some a else first_free h cands

/-- The address numbered `n`. -/
def addr (n : Nat) : Addr := ⟨n % (2 ^ 64 - 1), Nat.mod_lt _ (by norm_num)⟩

/-- The addresses `0 .. cap - 1`. -/
def arena (cap : Nat) : List Addr := (List.range cap).map addr

/-- An allocator over an arena of `cap` cells: it hands out the first free
cell and fails when all are in use. -/
def arena_allocator (α : Type) (cap : Nat) : Allocator α where
  pick h := first_free h (arena cap)
  pick_free := by
    intro h a
    generalize arena cap = cands
    induction cands with
    | nil => simp [first_free]
    | cons c cs ih =>
      unfold first_free
      split
      · rename_i hc
        intro hca
        cases hca
        simpa [Option.isNone_iff_eq_none] using hc
      · exact ih

/-- The heap in which no node lives. -/
def Heap.empty (α : Type) : Heap α := fun _ => none

/-- An example heap: three nodes, at addresses 0, 1 and 2, holding 1, 2 and 3. -/
def demo_heap : Heap Nat :=
  (((Heap.empty Nat).set (addr 0) (some ⟨1, some (addr 1)⟩)).set (addr 1)
    (some ⟨2, some (addr 2)⟩)).set (addr 2) (some ⟨3, none⟩)

/-- The list {1, 2, 3} of `demo_heap`. -/
def demo_list : SingleLinkedList := ⟨3, ⟨some (addr 0)⟩⟩

/-- An allocator with eight cells. -/
def demo_alloc : Allocator Nat := arena_allocator Nat 8

/-- An example memory: object 0 is the list {1, 2, 3} of `demo_heap`, every
other object is the list {7, 8}, with nodes at addresses 3 and 4. -/
def demo_memory : Memory Nat :=
  ⟨(demo_heap.set (addr 3) (some ⟨7, some (addr 4)⟩)).set (addr 4) (some ⟨8, none⟩),
    fun i => if i = 0 then demo_list else ⟨2, ⟨some (addr 3)⟩⟩⟩

/-- An example heap for comparisons: {1, 2} at addresses 0 and 1, {1, 3} at
addresses 2 and 3, and {1, 3, 5} at addresses 4, 5 and 6. -/
def cmp_heap : Heap Nat :=
  (((((((Heap.empty Nat).set (addr 0) (some ⟨1, some (addr 1)⟩)).set (addr 1)
    (some ⟨2, none⟩)).set (addr 2) (some ⟨1, some (addr 3)⟩)).set (addr 3)
    (some ⟨3, none⟩)).set (addr 4) (some ⟨1, some (addr 5)⟩)).set (addr 5)
    (some ⟨3, some (addr 6)⟩)).set (addr 6) (some ⟨5, none⟩)

/-- The list {1, 2} of `cmp_heap`. -/
def cmp_a : SingleLinkedList := ⟨2, ⟨some (addr 0)⟩⟩

/-- The list {1, 3} of `cmp_heap`. -/
def cmp_b : SingleLinkedList := ⟨2, ⟨some (addr 2)⟩⟩

/-- The list {1, 3, 5} of `cmp_heap`. -/
def cmp_c : SingleLinkedList := ⟨3, ⟨some (addr 4)⟩⟩

/-- An outcome with the returned value dropped. -/
def Outcome.discard {σ ρ : Type} : Outcome σ ρ → Outcome σ Unit
  | Outcome.ok s _ => Outcome.ok s ()
  | Outcome.bad_alloc s => Outcome.bad_alloc s
  | Outcome.undefined => Outcome.undefined
  | Outcome.out_of_fuel => Outcome.out_of_fuel

/-- The final state of an outcome, when the call returned. -/
def Outcome.state? {σ ρ : Type} : Outcome σ ρ → Option σ
  | Outcome.ok s _ => some s
  | _ => none

/-! ## Heaps and chains -/

section Lemmas

variable {α : Type}

theorem Heap.set_same (h : Heap α) (a : Addr) (c : Option (Node α)) : h.set a c a = c := by
  simp [Heap.set]

theorem Heap.set_other (h : Heap α) {a b : Addr} (c : Option (Node α)) (hne : b ≠ a) :
    h.set a c b = h b := by
  simp [Heap.set, hne]

theorem Seg.length_eq {h : Heap α} {as : List Addr} :
    ∀ {p : Link} {xs : List α} {q : Link}, Seg h p as xs q → as.length = xs.length := by
  induction as with
  | nil =>
    intro p xs q hs
    cases xs with
    | nil => rfl
    | cons x xs => simp [Seg] at hs
  | cons a as ih =>
    intro p xs q hs
    cases xs with
    | nil => simp [Seg] at hs
    | cons x xs =>
      obtain ⟨_, nxt, _, hrest⟩ := hs
      simp [ih hrest]

/-- Every node of a segment is live. -/
theorem Seg.live {h : Heap α} {as : List Addr} :
    ∀ {p : Link} {xs : List α} {q : Link}, Seg h p as xs q → ∀ a ∈ as, h a ≠ none := by
  induction as with
  | nil => intro p xs q _ a ha; simp at ha
  | cons b as ih =>
    intro p xs q hs a ha
    cases xs with
    | nil => simp [Seg] at hs
    | cons x xs =>
      obtain ⟨_, nxt, hb, hrest⟩ := hs
      rcases List.mem_cons.mp ha with rfl | hmem
      · simp [hb]
      · exact ih hrest a hmem

/-- A segment only depends on the cells of its own nodes. -/
theorem Seg.frame {h h1 : Heap α} {as : List Addr} :
    ∀ {p : Link} {xs : List α} {q : Link}, Seg h p as xs q → (∀ a ∈ as, h1 a = h a) →
      Seg h1 p as xs q := by
  induction as with
  | nil =>
    intro p xs q hs _
    cases xs with
    | nil => exact hs
    | cons x xs => simp [Seg] at hs
  | cons b as ih =>
    intro p xs q hs hf
    cases xs with
    | nil => simp [Seg] at hs
    | cons x xs =>
      obtain ⟨hp, nxt, hb, hrest⟩ := hs
      refine ⟨hp, nxt, ?_, ih hrest (fun a ha => hf a (List.mem_cons_of_mem _ ha))⟩
      rw [hf b (List.mem_cons_self _ _)]
      exact hb

theorem Seg.append {h : Heap α} {as1 : List Addr} :
    ∀ {p : Link} {xs1 : List α} {r : Link} {as2 : List Addr} {xs2 : List α} {q : Link},
      Seg h p as1 xs1 r → Seg h r as2 xs2 q → Seg h p (as1 ++ as2) (xs1 ++ xs2) q := by
  induction as1 with
  | nil =>
    intro p xs1 r as2 xs2 q h1 h2
    cases xs1 with
    | nil =>
      have hp : p = r := h1
      subst hp
      simpa using h2
    | cons x xs => simp [Seg] at h1
  | cons a as ih =>
    intro p xs1 r as2 xs2 q h1 h2
    cases xs1 with
    | nil => simp [Seg] at h1
    | cons x xs =>
      obtain ⟨hp, nxt, ha, hrest⟩ := h1
      exact ⟨hp, nxt, ha, ih hrest h2⟩

/-- A segment cut after its first `i` nodes. -/
theorem Seg.split {h : Heap α} {as : List Addr} :
    ∀ {p : Link} {xs : List α} {q : Link} (i : Nat), Seg h p as xs q →
      ∃ r, Seg h p (as.take i) (xs.take i) r ∧ Seg h r (as.drop i) (xs.drop i) q := by
  induction as with
  | nil =>
    intro p xs q i hs
    cases xs with
    | nil => exact ⟨p, by simp [Seg], by simpa using hs⟩
    | cons x xs => simp [Seg] at hs
  | cons a as ih =>
    intro p xs q i hs
    cases xs with
    | nil => simp [Seg] at hs
    | cons x xs =>
      cases i with
      | zero => exact ⟨p, by simp [Seg], by simpa using hs⟩
      | succ i =>
        obtain ⟨hp, nxt, ha, hrest⟩ := hs
        obtain ⟨r, h1, h2⟩ := ih i hrest
        exact ⟨r, ⟨hp, nxt, ha, h1⟩, by simpa using h2⟩

/-- The heap is a function: a link starts at most one chain. -/
theorem Chain.det {h : Heap α} {as : List Addr} :
    ∀ {p : Link} {xs : List α} {bs : List Addr} {ys : List α},
      Chain h p as xs → Chain h p bs ys → as = bs ∧ xs = ys := by
  induction as with
  | nil =>
    intro p xs bs ys h1 h2
    cases xs with
    | nil =>
      have hp : p = none := h1
      subst hp
      cases bs with
      | nil =>
        cases ys with
        | nil => exact ⟨rfl, rfl⟩
        | cons y ys => simp [Chain, Seg] at h2
      | cons b bs =>
        cases ys with
        | nil => simp [Chain, Seg] at h2
        | cons y ys => simp [Chain, Seg] at h2
    | cons x xs => simp [Chain, Seg] at h1
  | cons a as ih =>
    intro p xs bs ys h1 h2
    cases xs with
    | nil => simp [Chain, Seg] at h1
    | cons x xs =>
      obtain ⟨hp, nxt, ha, hrest⟩ := h1
      subst hp
      cases bs with
      | nil =>
        cases ys with
        | nil => simp [Chain, Seg] at h2
        | cons y ys => simp [Chain, Seg] at h2
      | cons b bs =>
        cases ys with
        | nil => simp [Chain, Seg] at h2
        | cons y ys =>
          obtain ⟨hp2, nxt2, hb, hrest2⟩ := h2
          cases hp2
          rw [ha] at hb
          cases hb
          obtain ⟨e1, e2⟩ := ih hrest hrest2
          exact ⟨by rw [e1], by rw [e2]⟩

/-- From any node of a chain a (shorter) chain starts. -/
theorem Chain.from_mem {h : Heap α} {as : List Addr} :
    ∀ {p : Link} {xs : List α}, Chain h p as xs → ∀ a ∈ as,
      ∃ bs ys, Chain h (some a) bs ys ∧ bs.length ≤ as.length := by
  induction as with
  | nil => intro p xs _ a ha; simp at ha
  | cons b as ih =>
    intro p xs hs a ha
    cases xs with
    | nil => simp [Chain, Seg] at hs
    | cons x xs =>
      by_cases hab : a = b
      · subst hab
        obtain ⟨_, nxt, hb, hrest⟩ := hs
        exact ⟨a :: as, x :: xs, ⟨rfl, nxt, hb, hrest⟩, le_refl _⟩
      · obtain ⟨_, nxt, _, hrest⟩ := hs
        have hmem : a ∈ as := by
          rcases List.mem_cons.mp ha with e | e
          · exact absurd e hab
          · exact e
        obtain ⟨bs, ys, hc, hlen⟩ := ih hrest a hmem
        exact ⟨bs, ys, hc, by simp; omega⟩

/-- A chain visits no node twice. -/
theorem Chain.nodup {h : Heap α} {as : List Addr} :
    ∀ {p : Link} {xs : List α}, Chain h p as xs → as.Nodup := by
  induction as with
  | nil => intro p xs _; exact List.nodup_nil
  | cons a as ih =>
    intro p xs hs
    cases xs with
    | nil => simp [Chain, Seg] at hs
    | cons x xs =>
      have hs0 := hs
      obtain ⟨hp, nxt, ha, hrest⟩ := hs
      refine List.nodup_cons.mpr ⟨?_, ih hrest⟩
      intro hmem
      obtain ⟨bs, ys, hc, hlen⟩ := Chain.from_mem hrest a hmem
      subst hp
      have := (Chain.det hs0 hc).1
      rw [← this] at hlen
      simp at hlen

/-- A chain has fewer nodes than `size_t` has values: the counter cannot wrap. -/
theorem Chain.length_lt {h : Heap α} {p : Link} {as : List Addr} {xs : List α}
    (hc : Chain h p as xs) : xs.length < SIZE_MOD := by
  have h1 : as.length ≤ Fintype.card Addr := List.Nodup.length_le_card (Chain.nodup hc)
  have h2 : as.length = xs.length := Seg.length_eq hc
  have h3 : Fintype.card Addr = 2 ^ 64 - 1 := Fintype.card_fin _
  rw [h3, h2] at h1
  have h4 : (2 : Nat) ^ 64 - 1 < 2 ^ 64 := by norm_num
  exact lt_of_le_of_lt h1 h4

/-! ## Memory access, evaluated -/

@[simp] theorem toPtr_none : Link.toPtr none = Ptr.null := rfl

@[simp] theorem toPtr_some (a : Addr) : Link.toPtr (some a) = Ptr.node a := rfl

theorem new_node_some {A : Allocator α} {h : Heap α} {a : Addr} (hp : A.pick h = some a)
    (v : α) (n : Link) : new_node A h v n = some (h.set a (some ⟨v, n⟩), a) := by
  simp [new_node, hp]

theorem new_node_none {A : Allocator α} {h : Heap α} (hp : A.pick h = none)
    (v : α) (n : Link) : new_node A h v n = none := by
  simp [new_node, hp]

theorem read_next_node {h : Heap α} {c : Addr} {nd : Node α} (hc : h c = some nd)
    (l : SingleLinkedList) : read_next h l (Ptr.node c) = some nd.next_node := by
  simp [read_next, hc]

theorem read_next_head (h : Heap α) (l : SingleLinkedList) :
    read_next h l Ptr.head = some l.head_.next_node := rfl

theorem write_next_head (h : Heap α) (l : SingleLinkedList) (n : Link) :
    write_next h l Ptr.head n = some (h, { l with head_ := ⟨n⟩ }) := rfl

theorem read_value_node {h : Heap α} {c : Addr} {nd : Node α} (hc : h c = some nd) :
    read_value h (Ptr.node c) = some nd.value := by
  simp [read_value, hc]

theorem write_next_node {h : Heap α} {c : Addr} {nd : Node α} (hc : h c = some nd)
    (l : SingleLinkedList) (n : Link) :
    write_next h l (Ptr.node c) n = some (h.set c (some ⟨nd.value, n⟩), l) := by
  simp [write_next, hc]

theorem delete_node_some {h : Heap α} {c : Addr} {nd : Node α} (hc : h c = some nd) :
    delete_node h (some c) = some (h.set c none) := by
  simp [delete_node, hc]

/-! ## Traversal of a well-formed list -/

theorem begin_of_wf {h : Heap α} {l : SingleLinkedList} {as : List Addr} {xs : List α}
    (wf : WellFormed h l as xs) : l.begin = ⟨l.head_.next_node.toPtr⟩ := by
  obtain ⟨hsize, hchain⟩ := wf
  unfold SingleLinkedList.begin
  by_cases h0 : l.size_ = 0
  · have hx : xs = [] := List.length_eq_zero.mp (by omega)
    subst hx
    have ha : as = [] := List.length_eq_zero.mp (by rw [Seg.length_eq hchain]; rfl)
    subst ha
    have hp : l.head_.next_node = none := hchain
    simp [h0, hp, SingleLinkedList.end_]
  · simp [h0]

theorem collect_chain {h : Heap α} (l : SingleLinkedList) {as : List Addr} :
    ∀ {p : Link} {xs : List α} (fuel : Nat), Chain h p as xs → xs.length < fuel →
      collect h l fuel ⟨p.toPtr⟩ = Except.ok xs := by
  induction as with
  | nil =>
    intro p xs fuel hc hf
    cases xs with
    | nil =>
      have hp : p = none := hc
      subst hp
      cases fuel with
      | zero => simp at hf
      | succ f => simp [collect, SingleLinkedList.end_]
    | cons x xs => simp [Chain, Seg] at hc
  | cons a as ih =>
    intro p xs fuel hc hf
    cases xs with
    | nil => simp [Chain, Seg] at hc
    | cons x xs =>
      obtain ⟨hp, nxt, ha, hrest⟩ := hc
      subst hp
      cases fuel with
      | zero => simp at hf
      | succ f =>
        have hrec := ih f hrest (by simpa using hf)
        simp [collect, SingleLinkedList.end_, BasicIterator.deref,
          BasicIterator.inc, read_value_node ha, read_next_node ha, hrec]

/-- Iterating a well-formed list from `begin()` to `end()` yields its element sequence. -/
theorem iterate_of_wf {h : Heap α} {l : SingleLinkedList} {as : List Addr} {xs : List α}
    (wf : WellFormed h l as xs) (fuel : Nat) (hf : xs.length < fuel) :
    l.iterate fuel h = Except.ok xs := by
  unfold SingleLinkedList.iterate
  rw [begin_of_wf wf]
  exact collect_chain l fuel wf.2 hf

theorem advance_chain {h : Heap α} (l : SingleLinkedList) {as : List Addr} :
    ∀ {p : Link} {xs : List α} (j : Nat), Chain h p as xs → j ≤ as.length →
      advance h l j ⟨p.toPtr⟩ = Except.ok ⟨Link.toPtr as[j]?⟩ := by
  induction as with
  | nil =>
    intro p xs j hc hj
    cases xs with
    | nil =>
      have hp : p = none := hc
      subst hp
      have hj0 : j = 0 := by simpa using hj
      subst hj0
      simp [advance]
    | cons x xs => simp [Chain, Seg] at hc
  | cons a as ih =>
    intro p xs j hc hj
    cases xs with
    | nil => simp [Chain, Seg] at hc
    | cons x xs =>
      obtain ⟨hp, nxt, ha, hrest⟩ := hc
      subst hp
      cases j with
      | zero => simp [advance]
      | succ j =>
        have hrec := ih j hrest (by simpa using hj)
        simp [advance, BasicIterator.inc, read_next_node ha, hrec]

/-- Advancing `before_begin()` `i` times reaches position `i`. -/
theorem advance_before_begin {h : Heap α} {l : SingleLinkedList} {as : List Addr}
    {xs : List α} (wf : WellFormed h l as xs) (i : Nat) (hi : i ≤ xs.length + 1) :
    advance h l i l.before_begin = Except.ok (position as i) := by
  cases i with
  | zero => simp [advance, position, SingleLinkedList.before_begin]
  | succ i =>
    have hlen := Seg.length_eq wf.2
    have hrec := advance_chain l i wf.2 (by omega)
    simp [advance, position, SingleLinkedList.before_begin, BasicIterator.inc, read_next]
    exact hrec

/-! ## Construction from an initializer list -/

/-- The constructor loop with the cursor on a fresh tail node `c`: unless an
allocation fails it hangs a chain with the remaining values behind `c`,
touching no other live cell and using only cells that were free. -/
theorem init_loop_node (A : Allocator α) (l : SingleLinkedList) (values : List α) :
    ∀ (h : Heap α) (c : Addr) (x : α), h c = some ⟨x, none⟩ →
      (∃ s, init_loop A values h l (Ptr.node c) = Outcome.bad_alloc s) ∨
      ∃ h1 as, init_loop A values h l (Ptr.node c) = Outcome.ok (h1, l) () ∧
        Chain h1 (some c) (c :: as) (x :: values) ∧
        (∀ b, b ≠ c → h b ≠ none → h1 b = h b) ∧ (∀ b ∈ as, h b = none) := by
  induction values with
  | nil =>
    intro h c x hc
    right
    exact ⟨h, [], by simp [init_loop], ⟨rfl, none, hc, rfl⟩, fun _ _ _ => rfl, by simp⟩
  | cons v rest ih =>
    intro h c x hc
    cases hpick : A.pick h with
    | none =>
      left
      exact ⟨(h, l), by simp [init_loop, new_node_none hpick]⟩
    | some a =>
      have hfree := A.pick_free h a hpick
      have hca : c ≠ a := by
        intro e
        rw [← e, hc] at hfree
        cases hfree
      have h1c : (h.set a (some ⟨v, none⟩)) c = some ⟨x, none⟩ := by
        rw [Heap.set_other _ _ hca]; exact hc
      have h2c : ((h.set a (some ⟨v, none⟩)).set c (some ⟨x, some a⟩)) c
          = some ⟨x, some a⟩ := Heap.set_same _ _ _
      have h2a : ((h.set a (some ⟨v, none⟩)).set c (some ⟨x, some a⟩)) a
          = some ⟨v, none⟩ := by
        rw [Heap.set_other _ _ (Ne.symm hca), Heap.set_same]
      have hstep : init_loop A (v :: rest) h l (Ptr.node c)
          = init_loop A rest ((h.set a (some ⟨v, none⟩)).set c (some ⟨x, some a⟩)) l
              (Ptr.node a) := by
        simp [init_loop, new_node_some hpick, write_next_node h1c, read_next_node h2c]
      rw [hstep]
      rcases ih _ a v h2a with ⟨s, hs⟩ | ⟨h3, as, hrun, hchain, hframe, hfresh⟩
      · exact Or.inl ⟨s, hs⟩
      · right
        have hc_notin : c ∉ as := by
          intro hmem
          have := hfresh c hmem
          rw [h2c] at this
          cases this
        have h3c : h3 c = some ⟨x, some a⟩ := by
          rw [hframe c hca (by rw [h2c]; simp), h2c]
        refine ⟨h3, a :: as, hrun, ⟨rfl, some a, h3c, hchain⟩, ?_, ?_⟩
        · intro b hbc hb
          by_cases hba : b = a
          · subst hba
            exact absurd hfree hb
          · rw [hframe b hba (by rw [Heap.set_other _ _ hbc, Heap.set_other _ _ hba]; exact hb),
              Heap.set_other _ _ hbc, Heap.set_other _ _ hba]
        · intro b hb
          rcases List.mem_cons.mp hb with rfl | hmem
          · exact hfree
          · have hb2 := hfresh b hmem
            have hbc : b ≠ c := by
              intro e
              rw [e, h2c] at hb2
              cases hb2
            have hba : b ≠ a := by
              intro e
              rw [e, h2a] at hb2
              cases hb2
            rw [Heap.set_other _ _ hbc, Heap.set_other _ _ hba] at hb2
            exact hb2

/-- The initializer-list constructor: unless an allocation fails, it returns a
well-formed list of the given values, built from cells that were free, and it
leaves every cell that was live as it was. -/
theorem from_initializer_list_ok (A : Allocator α) (h : Heap α) (S : List α) :
    (∃ h1, SingleLinkedList.from_initializer_list A h S = Outcome.bad_alloc h1) ∨
    ∃ h1 l as, SingleLinkedList.from_initializer_list A h S = Outcome.ok h1 l ∧
      WellFormed h1 l as S ∧ (∀ b, h b ≠ none → h1 b = h b) ∧ (∀ b ∈ as, h b = none) := by
  cases S with
  | nil =>
    right
    exact ⟨h, ⟨0, ⟨none⟩⟩, [], by simp [SingleLinkedList.from_initializer_list, init_loop],
      ⟨rfl, rfl⟩, fun _ _ => rfl, by simp⟩
  | cons v rest =>
    cases hpick : A.pick h with
    | none =>
      left
      exact ⟨h, by simp [SingleLinkedList.from_initializer_list, init_loop, new_node_none hpick]⟩
    | some a =>
      have hfree := A.pick_free h a hpick
      have h1a : (h.set a (some ⟨v, none⟩)) a = some ⟨v, none⟩ := Heap.set_same _ _ _
      rcases init_loop_node A ⟨(rest.length + 1) % SIZE_MOD, ⟨some a⟩⟩ rest _ a v h1a with
        ⟨⟨s1, s2⟩, hs⟩ | ⟨h3, as, hrun, hchain, hframe, hfresh⟩
      · left
        exact ⟨s1, by
          simp [SingleLinkedList.from_initializer_list, init_loop, new_node_some hpick,
            write_next, read_next, hs]⟩
      · right
        have hlen : (rest.length + 1) % SIZE_MOD = (v :: rest).length :=
          Nat.mod_eq_of_lt (Chain.length_lt hchain)
        refine ⟨h3, ⟨(rest.length + 1) % SIZE_MOD, ⟨some a⟩⟩, a :: as, ?_, ⟨hlen, hchain⟩, ?_, ?_⟩
        · simp [SingleLinkedList.from_initializer_list, init_loop, new_node_some hpick,
            write_next, read_next, hrun]
        · intro b hb
          have hba : b ≠ a := by
            intro e
            rw [e] at hb
            exact hb hfree
          rw [hframe b hba (by rw [Heap.set_other _ _ hba]; exact hb), Heap.set_other _ _ hba]
        · intro b hb
          rcases List.mem_cons.mp hb with rfl | hmem
          · exact hfree
          · have hb2 := hfresh b hmem
            have hba : b ≠ a := by
              intro e
              rw [e, h1a] at hb2
              cases hb2
            rw [Heap.set_other _ _ hba] at hb2
            exact hb2

/-! ## Insertion -/

/-- A cell that is free lies on no chain. -/
theorem Seg.not_mem_of_free {h : Heap α} {p q : Link} {as : List Addr} {xs : List α}
    (hs : Seg h p as xs q) {a : Addr} (ha : h a = none) : a ∉ as :=
  fun hmem => Seg.live hs a hmem ha

/-- Linking a fresh node `a` behind the node of index `j` of a chain. -/
theorem Chain.insert_at {h : Heap α} {as : List Addr} :
    ∀ {p : Link} {L : List α} (j : Nat), Chain h p as L → j < as.length →
      ∃ c x nxt, as[j]? = some c ∧ h c = some ⟨x, nxt⟩ ∧
        ∀ (a : Addr) (v : α), h a = none →
          Chain ((h.set a (some ⟨v, nxt⟩)).set c (some ⟨x, some a⟩)) p
            (as.take (j + 1) ++ a :: as.drop (j + 1)) (L.take (j + 1) ++ v :: L.drop (j + 1)) := by
  induction as with
  | nil => intro p L j _ hj; simp at hj
  | cons b as ih =>
    intro p L j hc hj
    cases L with
    | nil => simp [Chain, Seg] at hc
    | cons y L =>
      have hnd := Chain.nodup hc
      obtain ⟨hp, nxt, hb, hrest⟩ := hc
      cases j with
      | zero =>
        refine ⟨b, y, nxt, by simp, hb, ?_⟩
        intro a v ha
        have hab : a ≠ b := by
          intro e
          rw [e, hb] at ha
          cases ha
        have hb_notin : b ∉ as := (List.nodup_cons.mp hnd).1
        have ha_notin : a ∉ as := Seg.not_mem_of_free hrest ha
        refine ⟨hp, some a, Heap.set_same _ _ _, rfl, nxt, ?_, ?_⟩
        · rw [Heap.set_other _ _ hab, Heap.set_same]
        · simp only [List.drop_succ_cons, List.drop_zero]
          refine Seg.frame hrest ?_
          intro d hd
          have hdb : d ≠ b := fun e => hb_notin (e ▸ hd)
          have hda : d ≠ a := fun e => ha_notin (e ▸ hd)
          rw [Heap.set_other _ _ hdb, Heap.set_other _ _ hda]
      | succ j =>
        obtain ⟨c, x, nxt2, hidx, hcell, hins⟩ := ih j hrest (by simpa using hj)
        refine ⟨c, x, nxt2, by simpa using hidx, hcell, ?_⟩
        intro a v ha
        have hab : a ≠ b := by
          intro e
          rw [e, hb] at ha
          cases ha
        have hc_mem : c ∈ as := List.getElem?_mem hidx
        have hbc : b ≠ c := fun e => (List.nodup_cons.mp hnd).1 (e ▸ hc_mem)
        refine ⟨hp, nxt, ?_, ?_⟩
        · rw [Heap.set_other _ _ hbc, Heap.set_other _ _ (Ne.symm hab)]
          exact hb
        · simpa using hins a v ha

/-- `InsertAfter` at position `i` of a well-formed list, when the allocation
succeeds with address `a`. -/
theorem InsertAfter_ok (A : Allocator α) (h : Heap α) (l : SingleLinkedList) (as : List Addr)
    (L : List α) (i : Nat) (v : α) (a : Addr) (wf : WellFormed h l as L) (hi : i ≤ L.length)
    (halloc : A.pick h = some a) :
    ∃ h1 l1 nxt, l.InsertAfter A h (position as i) v = Outcome.ok (h1, l1) ⟨Ptr.node a⟩ ∧
      WellFormed h1 l1 (as.take i ++ a :: as.drop i) (L.take i ++ v :: L.drop i) ∧
      l1.size_ = l.size_ + 1 ∧ h1 a = some ⟨v, nxt⟩ ∧
      read_next h1 l1 (position as i).node_ = some (some a) ∧
      (i = 0 → h1 = h.set a (some ⟨v, l.head_.next_node⟩) ∧ l1.head_ = ⟨some a⟩) := by
  have hfree := A.pick_free h a halloc
  have hlen := Seg.length_eq wf.2
  cases i with
  | zero =>
    have hchain : Chain (h.set a (some ⟨v, l.head_.next_node⟩)) (some a) (a :: as) (v :: L) := by
      refine ⟨rfl, l.head_.next_node, Heap.set_same _ _ _, Seg.frame wf.2 ?_⟩
      intro d hd
      have hda : d ≠ a := fun e => Seg.not_mem_of_free wf.2 hfree (e ▸ hd)
      rw [Heap.set_other _ _ hda]
    have hsz : (l.size_ + 1) % SIZE_MOD = l.size_ + 1 := by
      apply Nat.mod_eq_of_lt
      have := Chain.length_lt hchain
      rw [wf.1]
      simpa using this
    refine ⟨h.set a (some ⟨v, l.head_.next_node⟩), ⟨l.size_ + 1, ⟨some a⟩⟩, l.head_.next_node,
      ?_, ⟨by simp [wf.1], by simpa using hchain⟩, rfl, Heap.set_same _ _ _, ?_, ?_⟩
    · simp [SingleLinkedList.InsertAfter, position, read_next, new_node_some halloc,
        write_next, hsz]
    · simp [position, read_next]
    · intro _; exact ⟨rfl, rfl⟩
  | succ j =>
    obtain ⟨c, x, nxt, hidx, hcell, hins⟩ := Chain.insert_at j wf.2 (by omega)
    have hchain := hins a v hfree
    have hca : c ≠ a := by
      intro e
      rw [e, hfree] at hcell
      cases hcell
    have h1c : (h.set a (some ⟨v, nxt⟩)) c = some ⟨x, nxt⟩ := by
      rw [Heap.set_other _ _ hca]; exact hcell
    have h2c : ((h.set a (some ⟨v, nxt⟩)).set c (some ⟨x, some a⟩)) c = some ⟨x, some a⟩ :=
      Heap.set_same _ _ _
    have hsz : (l.size_ + 1) % SIZE_MOD = l.size_ + 1 := by
      apply Nat.mod_eq_of_lt
      have := Chain.length_lt hchain
      rw [wf.1]
      simp at this
      have e : min (j + 1) L.length = j + 1 := by omega
      rw [e] at this
      omega
    refine ⟨(h.set a (some ⟨v, nxt⟩)).set c (some ⟨x, some a⟩), ⟨l.size_ + 1, l.head_⟩, nxt,
      ?_, ⟨?_, hchain⟩, rfl, ?_, ?_, ?_⟩
    · simp [SingleLinkedList.InsertAfter, position, hidx, read_next_node hcell,
        new_node_some halloc, write_next_node h1c, read_next_node h2c, hsz]
    · simp [wf.1]
      omega
    · rw [Heap.set_other _ _ (Ne.symm hca), Heap.set_same]
    · simp [position, hidx, read_next_node h2c]
    · intro e; cases e

/-- `PushFront` on a well-formed list, when the allocation succeeds with address `a`. -/
theorem PushFront_ok (A : Allocator α) (h : Heap α) (l : SingleLinkedList) (as : List Addr)
    (L : List α) (v : α) (a : Addr) (wf : WellFormed h l as L) (halloc : A.pick h = some a) :
    l.PushFront A h v
        = Outcome.ok (h.set a (some ⟨v, l.head_.next_node⟩), ⟨l.size_ + 1, ⟨some a⟩⟩) () ∧
      WellFormed (h.set a (some ⟨v, l.head_.next_node⟩)) ⟨l.size_ + 1, ⟨some a⟩⟩
        (a :: as) (v :: L) := by
  have hfree := A.pick_free h a halloc
  have hchain : Chain (h.set a (some ⟨v, l.head_.next_node⟩)) (some a) (a :: as) (v :: L) := by
    refine ⟨rfl, l.head_.next_node, Heap.set_same _ _ _, Seg.frame wf.2 ?_⟩
    intro d hd
    have hda : d ≠ a := fun e => Seg.not_mem_of_free wf.2 hfree (e ▸ hd)
    rw [Heap.set_other _ _ hda]
  have hsz : (l.size_ + 1) % SIZE_MOD = l.size_ + 1 := by
    apply Nat.mod_eq_of_lt
    have := Chain.length_lt hchain
    rw [wf.1]
    simpa using this
  exact ⟨by simp [SingleLinkedList.PushFront, new_node_some halloc, hsz],
    by simp [wf.1], hchain⟩

/-! ## Erasure -/

/-- A chain starts at its first node. -/
theorem Chain.head_eq {h : Heap α} {p : Link} {as : List Addr} {xs : List α}
    (hc : Chain h p as xs) : p = as[0]? := by
  cases as with
  | nil =>
    cases xs with
    | nil => simpa using hc
    | cons x xs => simp [Chain, Seg] at hc
  | cons a as =>
    cases xs with
    | nil => simp [Chain, Seg] at hc
    | cons x xs => simpa using hc.1

/-- The counter after `--size_` on a non-empty list. -/
theorem size_dec {k : Nat} (h1 : 0 < k) (h2 : k < SIZE_MOD) :
    (k + SIZE_MOD - 1) % SIZE_MOD = k - 1 := by
  unfold SIZE_MOD at *
  omega

/-- Unlinking and freeing the node of index `j + 1` of a chain. -/
theorem Chain.erase_at {h : Heap α} {as : List Addr} :
    ∀ {p : Link} {L : List α} (j : Nat), Chain h p as L → j + 1 < as.length →
      ∃ c x d y nxt, as[j]? = some c ∧ as[j + 1]? = some d ∧ nxt = as[j + 2]? ∧
        h c = some ⟨x, some d⟩ ∧ h d = some ⟨y, nxt⟩ ∧ c ≠ d ∧
        Chain ((h.set d none).set c (some ⟨x, nxt⟩)) p
          (as.take (j + 1) ++ as.drop (j + 2)) (L.take (j + 1) ++ L.drop (j + 2)) := by
  induction as with
  | nil => intro p L j _ hj; simp at hj
  | cons b as ih =>
    intro p L j hc hj
    cases L with
    | nil => simp [Chain, Seg] at hc
    | cons y0 L =>
      have hnd := Chain.nodup hc
      obtain ⟨hp, nxt0, hb, hrest⟩ := hc
      cases j with
      | zero =>
        cases as with
        | nil => simp at hj
        | cons d as =>
          cases L with
          | nil => simp [Seg] at hrest
          | cons y L =>
            obtain ⟨hp0, nxt, hd, hrest2⟩ := hrest
            subst hp0
            have hbd : b ≠ d := by
              intro e
              have := (List.nodup_cons.mp hnd).1
              exact this (by simp [e])
            have hb_notin : b ∉ as := fun hm =>
              (List.nodup_cons.mp hnd).1 (List.mem_cons_of_mem _ hm)
            have hd_notin : d ∉ as := (List.nodup_cons.mp (List.nodup_cons.mp hnd).2).1
            refine ⟨b, y0, d, y, nxt, by simp, by simp, ?_, hb, hd, hbd, ?_⟩
            · simpa using Chain.head_eq hrest2
            · refine ⟨hp, nxt, Heap.set_same _ _ _, ?_⟩
              simp only [List.drop_succ_cons, List.drop_zero, List.take_zero]
              refine Seg.frame hrest2 ?_
              intro e he
              have heb : e ≠ b := fun q => hb_notin (q ▸ he)
              have hed : e ≠ d := fun q => hd_notin (q ▸ he)
              rw [Heap.set_other _ _ heb, Heap.set_other _ _ hed]
      | succ j =>
        obtain ⟨c, x, d, y, nxt, hic, hid, hnxt, hcc, hcd, hne, hch⟩ :=
          ih j hrest (by simpa using hj)
        have hc_mem : c ∈ as := List.getElem?_mem hic
        have hd_mem : d ∈ as := List.getElem?_mem hid
        have hbc : b ≠ c := fun e => (List.nodup_cons.mp hnd).1 (e ▸ hc_mem)
        have hbd : b ≠ d := fun e => (List.nodup_cons.mp hnd).1 (e ▸ hd_mem)
        refine ⟨c, x, d, y, nxt, by simpa using hic, by simpa using hid,
          by simpa using hnxt, hcc, hcd, hne, ?_⟩
        refine ⟨hp, nxt0, ?_, by simpa using hch⟩
        rw [Heap.set_other _ _ hbc, Heap.set_other _ _ hbd]
        exact hb

/-- `EraseAfter` at position `i < k` of a well-formed list of `k` elements. -/
theorem EraseAfter_ok (h : Heap α) (l : SingleLinkedList) (as : List Addr) (L : List α)
    (i : Nat) (wf : WellFormed h l as L) (hi : i < L.length) :
    ∃ h1 l1, l.EraseAfter h (position as i) = Outcome.ok (h1, l1) ⟨Link.toPtr as[i + 1]?⟩ ∧
      WellFormed h1 l1 (as.take i ++ as.drop (i + 1)) (L.take i ++ L.drop (i + 1)) ∧
      l1.size_ = l.size_ - 1 ∧
      read_next h1 l1 (position as i).node_ = some as[i + 1]? ∧
      (∀ b, b ∉ as → h1 b = h b) := by
  have hlen := Seg.length_eq wf.2
  have hk : L.length < SIZE_MOD := Chain.length_lt wf.2
  have hsz : (l.size_ + SIZE_MOD - 1) % SIZE_MOD = l.size_ - 1 :=
    size_dec (by rw [wf.1]; omega) (by rw [wf.1]; exact hk)
  cases i with
  | zero =>
    cases as with
    | nil => simp at hlen; omega
    | cons d as =>
      cases L with
      | nil => simp at hi
      | cons y L =>
        have hnd := Chain.nodup wf.2
        obtain ⟨hp, nxt, hd, hrest⟩ := wf.2
        have hd_notin : d ∉ as := (List.nodup_cons.mp hnd).1
        have hnxt : nxt = as[0]? := Chain.head_eq hrest
        subst hnxt
        have hchain : Chain (h.set d none) as[0]? as L := by
          refine Seg.frame hrest ?_
          intro e he
          have hed : e ≠ d := fun q => hd_notin (q ▸ he)
          rw [Heap.set_other _ _ hed]
        refine ⟨h.set d none, ⟨l.size_ - 1, ⟨as[0]?⟩⟩, ?_, ⟨?_, by simpa using hchain⟩, rfl,
          ?_, ?_⟩
        · simp [SingleLinkedList.EraseAfter, position, read_next_head, hp, read_next_node hd,
            delete_node_some hd, write_next_head, hsz]
        · simp [wf.1]
        · simp [position, read_next_head]
        · intro b hb
          have hbd : b ≠ d := fun q => hb (by simp [q])
          rw [Heap.set_other _ _ hbd]
  | succ j =>
    obtain ⟨c, x, d, y, nxt, hic, hid, hnxt, hcc, hcd, hne, hch⟩ :=
      Chain.erase_at j wf.2 (by omega)
    subst hnxt
    have h1c : (h.set d none) c = some ⟨x, some d⟩ := by
      rw [Heap.set_other _ _ hne]; exact hcc
    have h2c : ((h.set d none).set c (some ⟨x, as[j + 2]?⟩)) c = some ⟨x, as[j + 2]?⟩ :=
      Heap.set_same _ _ _
    refine ⟨(h.set d none).set c (some ⟨x, as[j + 2]?⟩), ⟨l.size_ - 1, l.head_⟩, ?_, ⟨?_, hch⟩,
      rfl, ?_, ?_⟩
    · simp [SingleLinkedList.EraseAfter, position, hic, read_next_node hcc, read_next_node hcd,
        delete_node_some hcd, write_next_node h1c, read_next_node h2c, hsz]
    · simp [wf.1]
      omega
    · simp [position, hic, read_next_node h2c]
    · intro b hb
      have hbc : b ≠ c := fun q => hb (q ▸ List.getElem?_mem hic)
      have hbd : b ≠ d := fun q => hb (q ▸ List.getElem?_mem hid)
      rw [Heap.set_other _ _ hbc, Heap.set_other _ _ hbd]

/-! ## Clear -/

/-- The loop of `Clear()` on a chain: with more fuel than nodes it returns,
having freed exactly the nodes of the chain. -/
theorem clear_loop_chain (l : SingleLinkedList) {as : List Addr} :
    ∀ {h : Heap α} {p : Link} {xs : List α} (fuel : Nat), Chain h p as xs → as.length < fuel →
      ∃ h1, clear_loop l fuel h p = Outcome.ok h1 () ∧ (∀ a ∈ as, h1 a = none) ∧
        (∀ b, b ∉ as → h1 b = h b) := by
  induction as with
  | nil =>
    intro h p xs fuel hc hf
    cases xs with
    | nil =>
      have hp : p = none := hc
      subst hp
      cases fuel with
      | zero => simp at hf
      | succ f => exact ⟨h, by simp [clear_loop], by simp, fun _ _ => rfl⟩
    | cons x xs => simp [Chain, Seg] at hc
  | cons a as ih =>
    intro h p xs fuel hc hf
    cases xs with
    | nil => simp [Chain, Seg] at hc
    | cons x xs =>
      have hnd := Chain.nodup hc
      obtain ⟨hp, nxt, ha, hrest⟩ := hc
      subst hp
      have ha_notin : a ∉ as := (List.nodup_cons.mp hnd).1
      cases fuel with
      | zero => simp at hf
      | succ f =>
        have hrest1 : Chain (h.set a none) nxt as xs := by
          refine Seg.frame hrest ?_
          intro e he
          have hea : e ≠ a := fun q => ha_notin (q ▸ he)
          rw [Heap.set_other _ _ hea]
        obtain ⟨h1, hrun, hfreed, hframe⟩ := ih f hrest1 (by simpa using hf)
        refine ⟨h1, ?_, ?_, ?_⟩
        · simp [clear_loop, read_next_node ha, delete_node_some ha, hrun]
        · intro b hb
          rcases List.mem_cons.mp hb with rfl | hmem
          · rw [hframe b ha_notin, Heap.set_same]
          · exact hfreed b hmem
        · intro b hb
          have hba : b ≠ a := fun q => hb (by simp [q])
          have hb2 : b ∉ as := fun q => hb (List.mem_cons_of_mem _ q)
          rw [hframe b hb2, Heap.set_other _ _ hba]

/-- `Clear()` on a list whose sentinel starts a chain, with more fuel than nodes. -/
theorem Clear_ok (h : Heap α) (l : SingleLinkedList) (as : List Addr) (L : List α)
    (hc : Chain h l.head_.next_node as L) (fuel : Nat) (hf : L.length < fuel) :
    ∃ h1, l.Clear fuel h = Outcome.ok (h1, ⟨0, ⟨none⟩⟩) () ∧ (∀ a ∈ as, h1 a = none) ∧
      (∀ b, b ∉ as → h1 b = h b) := by
  have hlen := Seg.length_eq hc
  obtain ⟨h1, hrun, hfreed, hframe⟩ := clear_loop_chain l fuel hc (by omega)
  exact ⟨h1, by simp [SingleLinkedList.Clear, hrun], hfreed, hframe⟩

/-! ## Copy construction -/

/-- A well-formed list stays well formed when the cells that were live keep their content. -/
theorem WellFormed.keep {h h1 : Heap α} {l : SingleLinkedList} {as : List Addr} {xs : List α}
    (wf : WellFormed h l as xs) (hf : ∀ b, h b ≠ none → h1 b = h b) : WellFormed h1 l as xs :=
  ⟨wf.1, Seg.frame wf.2 (fun a ha => hf a (Seg.live wf.2 a ha))⟩

/-- The copy loop with the cursor on a fresh tail node `c`: with more fuel than
nodes left to copy, either an allocation fails or the rest of the source has
been copied behind `c`; every cell that was live, `c` apart, keeps its content. -/
theorem copy_loop_node (A : Allocator α) (other l : SingleLinkedList) {os : List Addr} :
    ∀ {ys : List α} {o : Link} (fuel : Nat) (h : Heap α) (c : Addr) (x : α),
      h c = some ⟨x, none⟩ → Chain h o os ys → c ∉ os → os.length < fuel →
      (∃ h1, copy_loop A other fuel h l (Ptr.node c) o = Outcome.bad_alloc (h1, l) ∧
        (∀ b, b ≠ c → h b ≠ none → h1 b = h b)) ∨
      ∃ h1 bs, copy_loop A other fuel h l (Ptr.node c) o = Outcome.ok (h1, l) () ∧
        Chain h1 (some c) (c :: bs) (x :: ys) ∧
        (∀ b, b ≠ c → h b ≠ none → h1 b = h b) ∧ (∀ b ∈ bs, h b = none) := by
  induction os with
  | nil =>
    intro ys o fuel h c x hc hch _ hf
    cases ys with
    | nil =>
      have ho : o = none := hch
      subst ho
      cases fuel with
      | zero => simp at hf
      | succ f =>
        right
        exact ⟨h, [], by simp [copy_loop], ⟨rfl, none, hc, rfl⟩, fun _ _ _ => rfl, by simp⟩
    | cons y ys => simp [Chain, Seg] at hch
  | cons o1 os ih =>
    intro ys o fuel h c x hc hch hc_notin hf
    cases ys with
    | nil => simp [Chain, Seg] at hch
    | cons y ys =>
      obtain ⟨ho, o2, ho1, hrest⟩ := hch
      subst ho
      cases fuel with
      | zero => simp at hf
      | succ f =>
        cases hpick : A.pick h with
        | none =>
          left
          exact ⟨h, by simp [copy_loop, read_value_node ho1, new_node_none hpick],
            fun _ _ _ => rfl⟩
        | some a =>
          have hfree := A.pick_free h a hpick
          have hca : c ≠ a := by
            intro e
            rw [← e, hc] at hfree
            cases hfree
          have ho1a : o1 ≠ a := by
            intro e
            rw [← e, ho1] at hfree
            cases hfree
          have ho1c : o1 ≠ c := fun e => hc_notin (by simp [e])
          have h1c : (h.set a (some ⟨y, none⟩)) c = some ⟨x, none⟩ := by
            rw [Heap.set_other _ _ hca]; exact hc
          have h2c : ((h.set a (some ⟨y, none⟩)).set c (some ⟨x, some a⟩)) c
              = some ⟨x, some a⟩ := Heap.set_same _ _ _
          have h2a : ((h.set a (some ⟨y, none⟩)).set c (some ⟨x, some a⟩)) a
              = some ⟨y, none⟩ := by
            rw [Heap.set_other _ _ (Ne.symm hca), Heap.set_same]
          have h2o : ((h.set a (some ⟨y, none⟩)).set c (some ⟨x, some a⟩)) o1
              = some ⟨y, o2⟩ := by
            rw [Heap.set_other _ _ ho1c, Heap.set_other _ _ ho1a]; exact ho1
          have hstep : copy_loop A other (f + 1) h l (Ptr.node c) (some o1)
              = copy_loop A other f ((h.set a (some ⟨y, none⟩)).set c (some ⟨x, some a⟩)) l
                  (Ptr.node a) o2 := by
            simp [copy_loop, read_value_node ho1, new_node_some hpick, write_next_node h1c,
              read_next_node h2c, read_next_node h2o]
          rw [hstep]
          have hrest2 : Chain ((h.set a (some ⟨y, none⟩)).set c (some ⟨x, some a⟩)) o2 os ys := by
            refine Seg.frame hrest ?_
            intro e he
            have hec : e ≠ c := fun q => hc_notin (List.mem_cons_of_mem _ (q ▸ he))
            have hea : e ≠ a := fun q => Seg.not_mem_of_free hrest hfree (q ▸ he)
            rw [Heap.set_other _ _ hec, Heap.set_other _ _ hea]
          have ha_notin : a ∉ os := Seg.not_mem_of_free hrest hfree
          have hkeep : ∀ b, b ≠ c → h b ≠ none →
              b ≠ a ∧ ((h.set a (some ⟨y, none⟩)).set c (some ⟨x, some a⟩)) b = h b := by
            intro b hbc hb
            have hba : b ≠ a := fun e => hb (e ▸ hfree)
            exact ⟨hba, by rw [Heap.set_other _ _ hbc, Heap.set_other _ _ hba]⟩
          rcases ih f _ a y h2a hrest2 ha_notin (by simpa using hf) with
            ⟨h3, hrun, hframe⟩ | ⟨h3, bs, hrun, hchain, hframe, hfresh⟩
          · left
            refine ⟨h3, hrun, ?_⟩
            intro b hbc hb
            obtain ⟨hba, hsame⟩ := hkeep b hbc hb
            rw [hframe b hba (by rw [hsame]; exact hb), hsame]
          · right
            have h3c : h3 c = some ⟨x, some a⟩ := by
              rw [hframe c hca (by rw [h2c]; simp), h2c]
            refine ⟨h3, a :: bs, hrun, ⟨rfl, some a, h3c, hchain⟩, ?_, ?_⟩
            · intro b hbc hb
              obtain ⟨hba, hsame⟩ := hkeep b hbc hb
              rw [hframe b hba (by rw [hsame]; exact hb), hsame]
            · intro b hb
              rcases List.mem_cons.mp hb with rfl | hmem
              · exact hfree
              · have hb2 := hfresh b hmem
                have hbc : b ≠ c := by
                  intro e
                  rw [e, h2c] at hb2
                  cases hb2
                have hba : b ≠ a := by
                  intro e
                  rw [e, h2a] at hb2
                  cases hb2
                rw [Heap.set_other _ _ hbc, Heap.set_other _ _ hba] at hb2
                exact hb2

/-- The copy constructor on a well-formed source, with more fuel than elements:
either an allocation fails, or it returns a well-formed list with the same element
sequence whose nodes were all free before; every cell that was live keeps its content. -/
theorem copy_ok (A : Allocator α) (fuel : Nat) (h : Heap α) (other : SingleLinkedList)
    (os : List Addr) (ys : List α) (wf : WellFormed h other os ys) (hf : ys.length < fuel) :
    (∃ h1, other.copy A fuel h = Outcome.bad_alloc h1 ∧ (∀ b, h b ≠ none → h1 b = h b)) ∨
    ∃ h1 l bs, other.copy A fuel h = Outcome.ok h1 l ∧ WellFormed h1 l bs ys ∧
      l.size_ = other.size_ ∧ (∀ b, h b ≠ none → h1 b = h b) ∧ (∀ b ∈ bs, h b = none) := by
  have hlen := Seg.length_eq wf.2
  cases fuel with
  | zero => simp at hf
  | succ f =>
    cases os with
    | nil =>
      cases ys with
      | nil =>
        have ho : other.head_.next_node = none := wf.2
        right
        exact ⟨h, ⟨other.size_, ⟨none⟩⟩, [], by simp [SingleLinkedList.copy, copy_loop, ho],
          ⟨wf.1, rfl⟩, rfl, fun _ _ => rfl, by simp⟩
      | cons y ys => simp at hlen
    | cons o1 os =>
      cases ys with
      | nil => simp at hlen
      | cons y ys =>
        obtain ⟨ho, o2, ho1, hrest⟩ := wf.2
        cases hpick : A.pick h with
        | none =>
          left
          exact ⟨h, by
            simp [SingleLinkedList.copy, copy_loop, ho, read_value_node ho1,
              new_node_none hpick], fun _ _ => rfl⟩
        | some a =>
          have hfree := A.pick_free h a hpick
          have ho1a : o1 ≠ a := by
            intro e
            rw [← e, ho1] at hfree
            cases hfree
          have h1a : (h.set a (some ⟨y, none⟩)) a = some ⟨y, none⟩ := Heap.set_same _ _ _
          have h1o : (h.set a (some ⟨y, none⟩)) o1 = some ⟨y, o2⟩ := by
            rw [Heap.set_other _ _ ho1a]; exact ho1
          have hrest1 : Chain (h.set a (some ⟨y, none⟩)) o2 os ys := by
            refine Seg.frame hrest ?_
            intro e he
            have hea : e ≠ a := fun q => Seg.not_mem_of_free hrest hfree (q ▸ he)
            rw [Heap.set_other _ _ hea]
          have ha_notin : a ∉ os := Seg.not_mem_of_free hrest hfree
          have hstep : other.copy A (f + 1) h
              = match copy_loop A other f (h.set a (some ⟨y, none⟩))
                  ⟨other.size_, ⟨some a⟩⟩ (Ptr.node a) o2 with
                | Outcome.ok (h1, l) _ => Outcome.ok h1 l
                | Outcome.bad_alloc (h1, _) => Outcome.bad_alloc h1
                | Outcome.undefined => Outcome.undefined
                | Outcome.out_of_fuel => Outcome.out_of_fuel := by
            simp [SingleLinkedList.copy, copy_loop, ho, read_value_node ho1,
              new_node_some hpick, write_next_head, read_next_head, read_next_node h1o]
          have hkeep : ∀ b, h b ≠ none → b ≠ a ∧ (h.set a (some ⟨y, none⟩)) b = h b := by
            intro b hb
            have hba : b ≠ a := fun e => hb (e ▸ hfree)
            exact ⟨hba, Heap.set_other _ _ hba⟩
          rcases copy_loop_node A other ⟨other.size_, ⟨some a⟩⟩ f _ a y h1a hrest1 ha_notin
              (by simp at hlen hf; omega) with
            ⟨h3, hrun, hframe⟩ | ⟨h3, bs, hrun, hchain, hframe, hfresh⟩
          · left
            refine ⟨h3, by rw [hstep, hrun], ?_⟩
            intro b hb
            obtain ⟨hba, hsame⟩ := hkeep b hb
            rw [hframe b hba (by rw [hsame]; exact hb), hsame]
          · right
            refine ⟨h3, ⟨other.size_, ⟨some a⟩⟩, a :: bs, by rw [hstep, hrun],
              ⟨wf.1, hchain⟩, rfl, ?_, ?_⟩
            · intro b hb
              obtain ⟨hba, hsame⟩ := hkeep b hb
              rw [hframe b hba (by rw [hsame]; exact hb), hsame]
            · intro b hb
              rcases List.mem_cons.mp hb with rfl | hmem
              · exact hfree
              · have hb2 := hfresh b hmem
                have hba : b ≠ a := by
                  intro e
                  rw [e, h1a] at hb2
                  cases hb2
                rw [Heap.set_other _ _ hba] at hb2
                exact hb2

/-! ## Equality of two lists with the same elements -/

theorem eq_loop_same (ne : α → α → Bool) (hne : ∀ x, ne x x = false) {h : Heap α}
    (lhs rhs : SingleLinkedList) {as : List Addr} :
    ∀ {p q : Link} {bs : List Addr} {xs : List α} (fuel : Nat),
      Chain h p as xs → Chain h q bs xs → xs.length < fuel →
      eq_loop ne h lhs rhs fuel ⟨p.toPtr⟩ ⟨q.toPtr⟩ = Except.ok true := by
  induction as with
  | nil =>
    intro p q bs xs fuel h1 _ hf
    cases xs with
    | nil =>
      have hp : p = none := h1
      subst hp
      cases fuel with
      | zero => simp at hf
      | succ f => simp [eq_loop, SingleLinkedList.end_]
    | cons x xs => simp [Chain, Seg] at h1
  | cons a as ih =>
    intro p q bs xs fuel h1 h2 hf
    cases xs with
    | nil => simp [Chain, Seg] at h1
    | cons x xs =>
      cases bs with
      | nil => simp [Chain, Seg] at h2
      | cons b bs =>
        obtain ⟨hp, n1, ha, hr1⟩ := h1
        obtain ⟨hq, n2, hb, hr2⟩ := h2
        subst hp
        subst hq
        cases fuel with
        | zero => simp at hf
        | succ f =>
          have hrec := ih f hr1 hr2 (by simpa using hf)
          simp [eq_loop, SingleLinkedList.end_, BasicIterator.deref, BasicIterator.inc,
            read_value_node ha, read_value_node hb, read_next_node ha, read_next_node hb,
            hne, hrec]

/-- `operator==` on two well-formed lists with the same element sequence is `true`. -/
theorem operator_eq_same (ne : α → α → Bool) (hne : ∀ x, ne x x = false) {h : Heap α}
    {lhs rhs : SingleLinkedList} {as bs : List Addr} {xs : List α}
    (wl : WellFormed h lhs as xs) (wr : WellFormed h rhs bs xs) (fuel : Nat)
    (hf : xs.length < fuel) : operator_eq ne fuel h lhs rhs = Except.ok true := by
  have hs : lhs.GetSize = rhs.GetSize := by
    simp [SingleLinkedList.GetSize, wl.1, wr.1]
  simp only [operator_eq, hs, ne_eq, not_true_eq_false, if_false]
  rw [begin_of_wf wl, begin_of_wf wr]
  exact eq_loop_same ne hne lhs rhs fuel wl.2 wr.2 hf

/-! ## Copy assignment -/

/-- Copy assignment between two distinct well-formed lists that share no node,
with more fuel than either has elements: either the copy of `rhs` fails, and
then nothing but free cells has changed, or it returns with `this` a fresh
copy of `rhs`, the old nodes of `this` freed and `rhs` untouched. -/
theorem operator_assign_ok (A : Allocator α) (fuel : Nat) (m : Memory α) (this rhs : Nat)
    (as bs : List Addr) (La Lb : List α) (hd : this ≠ rhs)
    (wfa : WellFormed m.heap (m.lists this) as La)
    (wfb : WellFormed m.heap (m.lists rhs) bs Lb) (hsep : ∀ x ∈ as, x ∉ bs)
    (hfa : La.length < fuel) (hfb : Lb.length < fuel) :
    (∃ h1, (m.lists rhs).copy A fuel m.heap = Outcome.bad_alloc h1 ∧
      operator_assign A fuel m this rhs = Outcome.bad_alloc ⟨h1, m.lists⟩ ∧
      (∀ b, m.heap b ≠ none → h1 b = m.heap b)) ∨
    ∃ m1 cs, operator_assign A fuel m this rhs = Outcome.ok m1 () ∧
      WellFormed m1.heap (m1.lists this) cs Lb ∧
      WellFormed m1.heap (m1.lists rhs) bs Lb ∧
      (m1.lists this).size_ = (m.lists rhs).size_ ∧
      (∀ i, i ≠ this → m1.lists i = m.lists i) ∧
      (∀ x ∈ cs, x ∉ bs) ∧ (∀ x ∈ as, m1.heap x = none) := by
  rcases copy_ok A fuel m.heap (m.lists rhs) bs Lb wfb hfb with
    ⟨h1, hcopy, hframe⟩ | ⟨h1, temp, cs, hcopy, wft, hsize, hframe, hfresh⟩
  · left
    exact ⟨h1, hcopy, by simp [operator_assign, hd, hcopy], hframe⟩
  · right
    have wfa1 : WellFormed h1 ⟨(m.lists this).size_, ⟨(m.lists this).head_.next_node⟩⟩ as La :=
      ⟨wfa.1, (wfa.keep hframe).2⟩
    obtain ⟨h2, hclear, hfreed, hframe2⟩ := Clear_ok h1 _ as La wfa1.2 fuel hfa
    have hcs_as : ∀ x ∈ cs, x ∉ as := by
      intro x hx hxa
      exact Seg.live wfa.2 x hxa (hfresh x hx)
    have hrun : operator_assign A fuel m this rhs
        = Outcome.ok (m.put h2 this ⟨temp.size_, ⟨temp.head_.next_node⟩⟩) () := by
      simp [operator_assign, hd, hcopy, SingleLinkedList.swap, hclear]
    refine ⟨m.put h2 this ⟨temp.size_, ⟨temp.head_.next_node⟩⟩, cs, hrun, ?_, ?_, ?_, ?_, ?_, ?_⟩
    · simp only [Memory.put, if_true]
      exact ⟨wft.1, Seg.frame wft.2 (fun x hx => hframe2 x (hcs_as x hx))⟩
    · simp only [Memory.put, if_neg (Ne.symm hd)]
      exact ⟨wfb.1, Seg.frame (wfb.keep hframe).2
        (fun x hx => hframe2 x (fun hxa => hsep x hxa hx))⟩
    · simp only [Memory.put, if_true]
      exact hsize
    · intro i hi
      simp [Memory.put, hi]
    · intro x hx hxb
      exact Seg.live wfb.2 x hxb (hfresh x hx)
    · intro x hx
      simp only [Memory.put]
      exact hfreed x hx

/-- The example memory holds two well-formed lists. -/
theorem demo_memory_wf :
    WellFormed demo_memory.heap (demo_memory.lists 0) [addr 0, addr 1, addr 2] [1, 2, 3] ∧
    WellFormed demo_memory.heap (demo_memory.lists 1) [addr 3, addr 4] [7, 8] :=
  ⟨⟨rfl, rfl, some (addr 1), rfl, rfl, some (addr 2), rfl, rfl, none, rfl, rfl⟩,
    ⟨rfl, rfl, some (addr 4), rfl, rfl, none, rfl, rfl⟩⟩

/-- The example state is well formed. -/
theorem demo_wf : WellFormed demo_heap demo_list [addr 0, addr 1, addr 2] [1, 2, 3] :=
  ⟨rfl, rfl, some (addr 1), rfl, rfl, some (addr 2), rfl, rfl, none, rfl, rfl⟩

/-! ## Swap -/

theorem swap_fst (l other : SingleLinkedList) : (l.swap other).1 = other := by
  cases other with
  | mk sz hd => cases hd; rfl

theorem swap_snd (l other : SingleLinkedList) : (l.swap other).2 = l := by
  cases l with
  | mk sz hd => cases hd; rfl

/-- Member `swap` on two objects of the memory exchanges the two objects and
touches nothing else. -/
theorem member_swap_ok (m : Memory α) (this other : Nat) :
    (member_swap m this other).heap = m.heap ∧
    (member_swap m this other).lists this = m.lists other ∧
    (member_swap m this other).lists other = m.lists this ∧
    ∀ i, i ≠ this → i ≠ other → (member_swap m this other).lists i = m.lists i := by
  refine ⟨rfl, ?_, ?_, ?_⟩
  · by_cases e : this = other
    · subst e
      simp [member_swap, Memory.put, swap_snd]
    · simp [member_swap, Memory.put, e, swap_fst]
  · simp [member_swap, Memory.put, swap_snd]
  · intro i h1 h2
    simp [member_swap, Memory.put, h1, h2]

/-! ## The size invariant -/

theorem SizeInvariant.of_wf {h : Heap α} {l : SingleLinkedList} {as : List Addr} {xs : List α}
    (wf : WellFormed h l as xs) : SizeInvariant h l :=
  ⟨as, xs, wf.2, by rw [wf.1, Seg.length_eq wf.2]⟩

theorem SizeInvariant.to_wf {h : Heap α} {l : SingleLinkedList} (inv : SizeInvariant h l) :
    ∃ as xs, WellFormed h l as xs := by
  obtain ⟨as, xs, hc, hs⟩ := inv
  exact ⟨as, xs, by rw [hs, Seg.length_eq hc], hc⟩

/-! ## Positions -/

/-- The node of index `j` of a chain holds the element of index `j` and links
to the node of index `j + 1` (to `nullptr` when it is the last). -/
theorem Chain.at_index {h : Heap α} {as : List Addr} :
    ∀ {p : Link} {L : List α} (j : Nat), Chain h p as L → j < as.length →
      ∃ c x, as[j]? = some c ∧ L[j]? = some x ∧ h c = some ⟨x, as[j + 1]?⟩ := by
  induction as with
  | nil => intro p L j _ hj; simp at hj
  | cons b as ih =>
    intro p L j hc hj
    cases L with
    | nil => simp [Chain, Seg] at hc
    | cons y L =>
      obtain ⟨_, nxt, hb, hrest⟩ := hc
      cases j with
      | zero =>
        have hn : nxt = as[0]? := Chain.head_eq hrest
        subst hn
        exact ⟨b, y, by simp, by simp, by simpa using hb⟩
      | succ j =>
        obtain ⟨c, x, h1, h2, h3⟩ := ih j hrest (by simpa using hj)
        exact ⟨c, x, by simpa using h1, by simpa using h2, by simpa using h3⟩

/-- Advancing the iterator at position `i` gives the iterator at position `i + 1`. -/
theorem inc_position {h : Heap α} {l : SingleLinkedList} {as : List Addr} {xs : List α}
    (wf : WellFormed h l as xs) (i : Nat) (hi : i ≤ xs.length) :
    (position as i).inc h l = Except.ok (position as (i + 1)) := by
  have hlen := Seg.length_eq wf.2
  cases i with
  | zero =>
    have := Chain.head_eq wf.2
    simp [position, BasicIterator.inc, read_next_head, this]
  | succ j =>
    obtain ⟨c, x, h1, _, h3⟩ := Chain.at_index j wf.2 (by omega)
    simp [position, h1, BasicIterator.inc, read_next_node h3]

/-- Dereferencing the iterator at position `i + 1` gives the element of index `i`. -/
theorem deref_position {h : Heap α} {l : SingleLinkedList} {as : List Addr} {xs : List α}
    (wf : WellFormed h l as xs) (i : Nat) (x : α) (hx : xs[i]? = some x) :
    (position as (i + 1)).deref h = Except.ok x := by
  have hlen := Seg.length_eq wf.2
  have hi : i < xs.length := by
    by_contra hc
    rw [List.getElem?_eq_none (by omega)] at hx
    cases hx
  obtain ⟨c, y, h1, h2, h3⟩ := Chain.at_index i wf.2 (by omega)
  rw [hx] at h2
  cases h2
  simp [position, h1, BasicIterator.deref, read_value_node h3]

/-! ## The loop of `operator==` -/

theorem first_diff_lt (ne : α → α → Bool) :
    ∀ (xs ys : List α) (d : Nat), first_diff ne xs ys = some d → d < xs.length := by
  intro xs
  induction xs with
  | nil => intro ys d hd; simp [first_diff] at hd
  | cons x xs ih =>
    intro ys d hd
    cases ys with
    | nil => simp [first_diff] at hd
    | cons y ys =>
      simp only [first_diff] at hd
      split at hd
      · cases hd
        simp
      · cases hfd : first_diff ne xs ys with
        | none => simp [hfd] at hd
        | some e =>
          simp [hfd] at hd
          subst hd
          have := ih ys e hfd
          simp
          omega

/-- No pair of elements at the same index is told apart exactly when there is
no first difference. -/
theorem first_diff_none_iff (ne : α → α → Bool) :
    ∀ (xs ys : List α), first_diff ne xs ys = none ↔
      ∀ (i : Nat) (x y : α), xs[i]? = some x → ys[i]? = some y → ne x y = false := by
  intro xs
  induction xs with
  | nil => intro ys; simp [first_diff]
  | cons x xs ih =>
    intro ys
    cases ys with
    | nil => simp [first_diff]
    | cons y ys =>
      simp only [first_diff]
      constructor
      · intro hfd i a b ha hb
        by_cases hne : ne x y = true
        · simp [hne] at hfd
        · simp [hne] at hfd
          cases i with
          | zero =>
            simp at ha hb
            subst ha
            subst hb
            simpa using hne
          | succ i => exact (ih ys).mp hfd i a b (by simpa using ha) (by simpa using hb)
      · intro hall
        have h0 : ne x y = false := hall 0 x y (by simp) (by simp)
        simp [h0]
        apply (ih ys).mpr
        intro i a b ha hb
        exact hall (i + 1) a b (by simpa using ha) (by simpa using hb)

/-- The loop of `operator==` on two chains of the same length: it needs one
unit of fuel for each pass through the loop test, that is one more than the
index of the first difference, or than the length when there is none; it never
reads through a null or dangling pointer. -/
theorem eq_loop_chain (ne : α → α → Bool) {h : Heap α} (lhs rhs : SingleLinkedList)
    {as : List Addr} :
    ∀ {p q : Link} {bs : List Addr} {xs ys : List α} (fuel : Nat),
      Chain h p as xs → Chain h q bs ys → xs.length = ys.length →
      eq_loop ne h lhs rhs fuel ⟨p.toPtr⟩ ⟨q.toPtr⟩
        = if (first_diff ne xs ys).getD xs.length < fuel
          then Except.ok (first_diff ne xs ys).isNone
          else Except.error Fault.out_of_fuel := by
  induction as with
  | nil =>
    intro p q bs xs ys fuel h1 _ hlen
    cases xs with
    | nil =>
      have hp : p = none := h1
      subst hp
      cases fuel with
      | zero => simp [eq_loop, first_diff]
      | succ f => simp [eq_loop, SingleLinkedList.end_, first_diff]
    | cons x xs => simp [Chain, Seg] at h1
  | cons a as ih =>
    intro p q bs xs ys fuel h1 h2 hlen
    cases xs with
    | nil => simp [Chain, Seg] at h1
    | cons x xs =>
      cases ys with
      | nil => simp at hlen
      | cons y ys =>
        cases bs with
        | nil => simp [Chain, Seg] at h2
        | cons b bs =>
          obtain ⟨hp, n1, ha, hr1⟩ := h1
          obtain ⟨hq, n2, hb, hr2⟩ := h2
          subst hp
          subst hq
          cases fuel with
          | zero => simp [eq_loop]
          | succ f =>
            have hrec := ih f hr1 hr2 (by simpa using hlen)
            by_cases hne : ne x y = true
            · simp [eq_loop, SingleLinkedList.end_, BasicIterator.deref,
                read_value_node ha, read_value_node hb, hne, first_diff]
            · have hne2 : ne x y = false := by simpa using hne
              simp only [eq_loop, SingleLinkedList.end_, BasicIterator.deref,
                BasicIterator.inc, read_value_node ha, read_value_node hb, read_next_node ha,
                read_next_node hb, hne2, first_diff, toPtr_some]
              simp only [ne_eq, BasicIterator.mk.injEq, reduceCtorEq, not_false_eq_true,
                if_true, Bool.false_eq_true, if_false, hrec]
              cases hfd : first_diff ne xs ys with
              | none => simp
              | some d => simp

/-- `operator==` on two well-formed lists, in terms of the first difference. -/
theorem operator_eq_chain (ne : α → α → Bool) {h : Heap α} {lhs rhs : SingleLinkedList}
    {as bs : List Addr} {xs ys : List α} (wl : WellFormed h lhs as xs)
    (wr : WellFormed h rhs bs ys) (fuel : Nat) :
    operator_eq ne fuel h lhs rhs
      = if xs.length ≠ ys.length then Except.ok false
        else if (first_diff ne xs ys).getD xs.length < fuel
          then Except.ok (first_diff ne xs ys).isNone
          else Except.error Fault.out_of_fuel := by
  by_cases hlen : xs.length = ys.length
  · have hs : lhs.GetSize = rhs.GetSize := by
      simp [SingleLinkedList.GetSize, wl.1, wr.1, hlen]
    simp only [operator_eq, hs, ne_eq, not_true_eq_false, if_false]
    rw [begin_of_wf wl, begin_of_wf wr, eq_loop_chain ne lhs rhs fuel wl.2 wr.2 hlen]
    simp [hlen]
  · have hs : lhs.GetSize ≠ rhs.GetSize := by
      simp [SingleLinkedList.GetSize, wl.1, wr.1, hlen]
    simp [operator_eq, hs, hlen]

/-! ## The loop of `operator<` -/

/-- The loop of `operator<` on two chains, with more fuel than the shorter one
has nodes: it returns what `lexLt` computes on the two element sequences. -/
theorem lt_loop_chain (lt gt : α → α → Bool) {h : Heap α} (lhs rhs : SingleLinkedList)
    {as : List Addr} :
    ∀ {p q : Link} {bs : List Addr} {xs ys : List α} (fuel : Nat),
      Chain h p as xs → Chain h q bs ys → min xs.length ys.length < fuel →
      decide (lhs.GetSize < rhs.GetSize) = decide (xs.length < ys.length) →
      lt_loop lt gt h lhs rhs fuel ⟨p.toPtr⟩ ⟨q.toPtr⟩ = Except.ok (lexLt lt gt xs ys) := by
  induction as with
  | nil =>
    intro p q bs xs ys fuel h1 _ hf hsz
    cases xs with
    | nil =>
      have hp : p = none := h1
      subst hp
      cases fuel with
      | zero => simp at hf
      | succ f =>
        cases ys with
        | nil => simpa [lt_loop, SingleLinkedList.end_, lexLt] using hsz
        | cons y ys => simpa [lt_loop, SingleLinkedList.end_, lexLt] using hsz
    | cons x xs => simp [Chain, Seg] at h1
  | cons a as ih =>
    intro p q bs xs ys fuel h1 h2 hf hsz
    cases xs with
    | nil => simp [Chain, Seg] at h1
    | cons x xs =>
      obtain ⟨hp, n1, ha, hr1⟩ := h1
      subst hp
      cases fuel with
      | zero => simp at hf
      | succ f =>
        cases bs with
        | nil =>
          cases ys with
          | nil =>
            have hq : q = none := h2
            subst hq
            simpa [lt_loop, SingleLinkedList.end_, lexLt] using hsz
          | cons y ys => simp [Chain, Seg] at h2
        | cons b bs =>
          cases ys with
          | nil => simp [Chain, Seg] at h2
          | cons y ys =>
            obtain ⟨hq, n2, hb, hr2⟩ := h2
            subst hq
            have hrec := ih f hr1 hr2 (by simp at hf; omega) (by simpa using hsz)
            by_cases hlt : lt x y = true
            · simp [lt_loop, SingleLinkedList.end_, BasicIterator.deref, read_value_node ha,
                read_value_node hb, hlt, lexLt]
            · by_cases hgt : gt x y = true
              · simp [lt_loop, SingleLinkedList.end_, BasicIterator.deref, read_value_node ha,
                  read_value_node hb, hlt, hgt, lexLt]
              · simp [lt_loop, SingleLinkedList.end_, BasicIterator.deref, BasicIterator.inc,
                  read_value_node ha, read_value_node hb, read_next_node ha, read_next_node hb,
                  hlt, hgt, lexLt, hrec]

/-- `operator<` on two well-formed lists, with more fuel than the shorter has elements. -/
theorem operator_lt_chain (lt gt : α → α → Bool) {h : Heap α} {lhs rhs : SingleLinkedList}
    {as bs : List Addr} {xs ys : List α} (wl : WellFormed h lhs as xs)
    (wr : WellFormed h rhs bs ys) (fuel : Nat) (hf : min xs.length ys.length < fuel) :
    operator_lt lt gt fuel h lhs rhs = Except.ok (lexLt lt gt xs ys) := by
  unfold operator_lt
  rw [begin_of_wf wl, begin_of_wf wr]
  exact lt_loop_chain lt gt lhs rhs fuel wl.2 wr.2 hf
    (by simp [SingleLinkedList.GetSize, wl.1, wr.1])

/-- With `!=` the negation of equality there is no first difference exactly
between equal sequences. -/
theorem first_diff_elem_ne [DecidableEq α] : ∀ (xs ys : List α), xs.length = ys.length →
    ((first_diff elem_ne xs ys).isNone = decide (xs = ys)) := by
  intro xs
  induction xs with
  | nil =>
    intro ys hlen
    cases ys with
    | nil => simp [first_diff]
    | cons y ys => simp at hlen
  | cons x xs ih =>
    intro ys hlen
    cases ys with
    | nil => simp at hlen
    | cons y ys =>
      have hrec := ih ys (by simpa using hlen)
      by_cases hxy : x = y
      · subst hxy
        simp only [first_diff, elem_ne, ne_eq, not_true_eq_false, decide_False,
          Bool.false_eq_true, if_false, Option.isNone_map']
        simp only [elem_ne, ne_eq] at hrec
        rw [hrec]
        simp
      · simp [first_diff, elem_ne, hxy]

/-! ## The lexicographic order on element sequences -/

section Order

variable [LinearOrder α]

theorem lexLt_cons (x y : α) (xs ys : List α) :
    lexLt elem_lt elem_gt (x :: xs) (y :: ys)
      = if x < y then true else if y < x then false else lexLt elem_lt elem_gt xs ys := by
  simp [lexLt, elem_lt, elem_gt]

/-- Exactly one of `xs < ys`, `xs = ys`, `ys < xs` holds. -/
theorem lexLt_trichotomy : ∀ (xs ys : List α),
    (lexLt elem_lt elem_gt xs ys = true ∧ xs ≠ ys ∧ lexLt elem_lt elem_gt ys xs = false) ∨
    (lexLt elem_lt elem_gt xs ys = false ∧ xs = ys ∧ lexLt elem_lt elem_gt ys xs = false) ∨
    (lexLt elem_lt elem_gt xs ys = false ∧ xs ≠ ys ∧ lexLt elem_lt elem_gt ys xs = true) := by
  intro xs
  induction xs with
  | nil =>
    intro ys
    cases ys with
    | nil => simp [lexLt]
    | cons y ys => simp [lexLt]
  | cons x xs ih =>
    intro ys
    cases ys with
    | nil => simp [lexLt]
    | cons y ys =>
      rw [lexLt_cons, lexLt_cons]
      rcases lt_trichotomy x y with hlt | heq | hgt
      · have h1 : ¬ y < x := not_lt_of_lt hlt
        have h2 : x ≠ y := ne_of_lt hlt
        simp [hlt, h1, h2]
      · subst heq
        simpa using ih ys
      · have h1 : ¬ x < y := not_lt_of_lt hgt
        have h2 : x ≠ y := ne_of_gt hgt
        simp [hgt, h1, h2]

theorem lexLt_trans : ∀ (xs ys zs : List α),
    lexLt elem_lt elem_gt xs ys = true → lexLt elem_lt elem_gt ys zs = true →
      lexLt elem_lt elem_gt xs zs = true := by
  intro xs
  induction xs with
  | nil =>
    intro ys zs h1 h2
    cases ys with
    | nil => simp [lexLt] at h1
    | cons y ys =>
      cases zs with
      | nil => simp [lexLt] at h2
      | cons z zs => simp [lexLt]
  | cons x xs ih =>
    intro ys zs h1 h2
    cases ys with
    | nil => simp [lexLt] at h1
    | cons y ys =>
      cases zs with
      | nil => simp [lexLt] at h2
      | cons z zs =>
        rw [lexLt_cons] at h1 h2 ⊢
        rcases lt_trichotomy x y with hxy | hxy | hxy
        · rcases lt_trichotomy y z with hyz | hyz | hyz
          · simp [lt_trans hxy hyz]
          · subst hyz
            simp [hxy]
          · simp [hyz, not_lt_of_lt hyz] at h2
        · subst hxy
          rcases lt_trichotomy x z with hyz | hyz | hyz
          · simp [hyz]
          · subst hyz
            simp only [lt_self_iff_false, if_false] at h1 h2 ⊢
            exact ih ys zs h1 h2
          · simp [hyz, not_lt_of_lt hyz] at h2
        · simp [hxy, not_lt_of_lt hxy] at h1

/-- `lexLt` is the lexicographic order: some index, within both sequences,
has equal elements before it and a smaller element on the left, or the left
sequence is a proper prefix of the right one. -/
theorem lexLt_iff : ∀ (xs ys : List α),
    lexLt elem_lt elem_gt xs ys = true ↔
      (∃ (i : Nat) (x y : α), xs[i]? = some x ∧ ys[i]? = some y ∧
        xs.take i = ys.take i ∧ x < y) ∨
      (xs.length < ys.length ∧ ys.take xs.length = xs) := by
  intro xs
  induction xs with
  | nil =>
    intro ys
    cases ys with
    | nil => simp [lexLt]
    | cons y ys => simp [lexLt]
  | cons x xs ih =>
    intro ys
    cases ys with
    | nil => simp [lexLt]
    | cons y ys =>
      rw [lexLt_cons]
      rcases lt_trichotomy x y with hlt | heq | hgt
      · simp only [hlt, if_true, true_iff]
        exact Or.inl ⟨0, x, y, by simp, by simp, by simp, hlt⟩
      · subst heq
        simp only [lt_self_iff_false, if_false]
        rw [ih ys]
        constructor
        · rintro (⟨i, a, b, h1, h2, h3, h4⟩ | ⟨h1, h2⟩)
          · exact Or.inl ⟨i + 1, a, b, by simpa using h1, by simpa using h2, by simp [h3], h4⟩
          · exact Or.inr ⟨by simpa using h1, by simp [h2]⟩
        · rintro (⟨i, a, b, h1, h2, h3, h4⟩ | ⟨h1, h2⟩)
          · cases i with
            | zero =>
              simp at h1 h2
              subst h1
              subst h2
              exact absurd h4 (lt_irrefl _)
            | succ i =>
              exact Or.inl ⟨i, a, b, by simpa using h1, by simpa using h2,
                by simpa using h3, h4⟩
          · exact Or.inr ⟨by simpa using h1, by simpa using h2⟩
      · have hn : ¬ x < y := not_lt_of_lt hgt
        simp only [hn, if_false, hgt, if_true, Bool.false_eq_true, false_iff]
        rintro (⟨i, a, b, h1, h2, h3, h4⟩ | ⟨h1, h2⟩)
        · cases i with
          | zero =>
            simp at h1 h2
            subst h1
            subst h2
            exact hn h4
          | succ i =>
            simp at h3
            exact ne_of_gt hgt h3.1
        · simp at h2
          exact ne_of_gt hgt h2.1.symm

end Order

/-! ## The comparison operators on well-formed lists -/

/-- With `!=` the negation of equality, `operator==` decides the equality of
the two element sequences. -/
theorem operator_eq_decide [DecidableEq α] {h : Heap α} {lhs rhs : SingleLinkedList}
    {as bs : List Addr} {xs ys : List α} (wl : WellFormed h lhs as xs)
    (wr : WellFormed h rhs bs ys) (fuel : Nat) (hf : xs.length < fuel) :
    operator_eq elem_ne fuel h lhs rhs = Except.ok (decide (xs = ys)) := by
  rw [operator_eq_chain elem_ne wl wr fuel]
  by_cases hlen : xs.length = ys.length
  · have hsteps : (first_diff elem_ne xs ys).getD xs.length < fuel := by
      cases hfd : first_diff elem_ne xs ys with
      | none => simpa using hf
      | some d =>
        have := first_diff_lt elem_ne xs ys d hfd
        simp
        omega
    rw [if_neg (by simpa using hlen), if_pos hsteps, first_diff_elem_ne xs ys hlen]
  · have hne : xs ≠ ys := fun e => hlen (by rw [e])
    rw [if_pos hlen]
    simp [hne]

/-- The three basic comparisons of two well-formed lists over a linearly
ordered element type, with more fuel than either has elements. -/
theorem compare_ok [LinearOrder α] {h : Heap α} {a b : SingleLinkedList}
    {as bs : List Addr} {La Lb : List α} (wfa : WellFormed h a as La)
    (wfb : WellFormed h b bs Lb) (fuel : Nat) (hfa : La.length < fuel)
    (hfb : Lb.length < fuel) :
    operator_lt elem_lt elem_gt fuel h a b = Except.ok (lexLt elem_lt elem_gt La Lb) ∧
    operator_lt elem_lt elem_gt fuel h b a = Except.ok (lexLt elem_lt elem_gt Lb La) ∧
    operator_eq elem_ne fuel h a b = Except.ok (decide (La = Lb)) :=
  ⟨operator_lt_chain elem_lt elem_gt wfa wfb fuel (by omega),
    operator_lt_chain elem_lt elem_gt wfb wfa fuel (by omega),
    operator_eq_decide wfa wfb fuel hfa⟩

/-! ## Insertion followed by erasure -/

theorem take_insert {β : Type} (l : List β) (i : Nat) (v : β) (hi : i ≤ l.length) :
    (l.take i ++ v :: l.drop i).take i = l.take i := by
  rw [List.take_append_of_le_length (by simp; omega)]
  simp

theorem drop_insert {β : Type} (l : List β) (i : Nat) (v : β) (hi : i ≤ l.length) :
    (l.take i ++ v :: l.drop i).drop (i + 1) = l.drop i := by
  have hlen : (l.take i).length = i := by simp; omega
  rw [List.drop_append_eq_append_drop, hlen]
  simp [List.drop_eq_nil_of_le, hlen]

theorem getElem?_insert_succ {β : Type} (l : List β) (i : Nat) (v : β) (hi : i ≤ l.length) :
    (l.take i ++ v :: l.drop i)[i + 1]? = l[i]? := by
  have hlen : (l.take i).length = i := by simp; omega
  rw [List.getElem?_append_right (by omega), hlen]
  simp

/-- The position numbered `i` is the same node before and after an insertion behind it. -/
theorem position_insert (as : List Addr) (i : Nat) (a : Addr) (hi : i ≤ as.length) :
    position (as.take i ++ a :: as.drop i) i = position as i := by
  cases i with
  | zero => rfl
  | succ j =>
    have hlen : (as.take (j + 1)).length = j + 1 := by simp; omega
    simp only [position]
    rw [List.getElem?_append_left (by omega), List.getElem?_take_of_lt (by omega)]

/-- `PopFront()` on a non-empty well-formed list. -/
theorem PopFront_ok (h : Heap α) (l : SingleLinkedList) (as : List Addr) (L : List α)
    (wf : WellFormed h l as L) (hL : 0 < L.length) :
    ∃ h1 l1, l.PopFront h = Outcome.ok (h1, l1) () ∧ WellFormed h1 l1 as.tail L.tail ∧
      l1.size_ = l.size_ - 1 ∧ (∀ b, b ∉ as → h1 b = h b) := by
  obtain ⟨h1, l1, hrun, wf1, hsize, _, hframe⟩ := EraseAfter_ok h l as L 0 wf hL
  have hne : l.size_ ≠ 0 := by rw [wf.1]; omega
  have hrun0 : l.EraseAfter h ⟨Ptr.head⟩ = Outcome.ok (h1, l1) ⟨Link.toPtr as[0 + 1]?⟩ := hrun
  exact ⟨h1, l1, by simp [SingleLinkedList.PopFront, hne, hrun0], by simpa using wf1, hsize,
    hframe⟩

/-- Two well-formed list objects with the same nodes are the same object. -/
theorem WellFormed.unique {h h1 : Heap α} {l l1 : SingleLinkedList} {as : List Addr}
    {xs ys : List α} (wf : WellFormed h l as xs) (wf1 : WellFormed h1 l1 as ys) : l1 = l := by
  have e1 := Chain.head_eq wf.2
  have e2 := Chain.head_eq wf1.2
  have e3 : l1.size_ = l.size_ := by
    rw [wf.1, wf1.1, ← Seg.length_eq wf.2, ← Seg.length_eq wf1.2]
  cases l with
  | mk sz hd =>
    cases l1 with
    | mk sz1 hd1 =>
      cases hd
      cases hd1
      simp only at e1 e2 e3
      rw [e1, e2, e3]

/-- `InsertAfter` at position `i`, then `EraseAfter` at the same position. -/
theorem insert_erase_ok (A : Allocator α) (h : Heap α) (l : SingleLinkedList) (as : List Addr)
    (L : List α) (i : Nat) (v : α) (a : Addr) (wf : WellFormed h l as L) (hi : i ≤ L.length)
    (halloc : A.pick h = some a) :
    ∃ h1 l1 r1, l.InsertAfter A h (position as i) v = Outcome.ok (h1, l1) r1 ∧
      ∃ h2, l1.EraseAfter h1 (position as i) = Outcome.ok (h2, l) (position as (i + 1)) ∧
        WellFormed h2 l as L := by
  have hlen := Seg.length_eq wf.2
  obtain ⟨h1, l1, _, hrun, wf1, _, _, _, _⟩ := InsertAfter_ok A h l as L i v a wf hi halloc
  obtain ⟨h2, l2, hrun2, wf2, _, _, _⟩ :=
    EraseAfter_ok h1 l1 _ _ i wf1 (by simp; omega)
  rw [take_insert as i a (by omega), drop_insert as i a (by omega), take_insert L i v hi,
    drop_insert L i v hi, List.take_append_drop, List.take_append_drop] at wf2
  rw [position_insert as i a (by omega), getElem?_insert_succ as i a (by omega)] at hrun2
  have e : l2 = l := wf.unique wf2
  subst e
  exact ⟨h1, l1, _, hrun, h2, hrun2, wf2⟩

/-- The comparison examples are well formed. -/
theorem cmp_wf :
    WellFormed cmp_heap cmp_a [addr 0, addr 1] [1, 2] ∧
    WellFormed cmp_heap cmp_b [addr 2, addr 3] [1, 3] ∧
    WellFormed cmp_heap cmp_c [addr 4, addr 5, addr 6] [1, 3, 5] :=
  ⟨⟨rfl, rfl, some (addr 1), rfl, rfl, none, rfl, rfl⟩,
    ⟨rfl, rfl, some (addr 3), rfl, rfl, none, rfl, rfl⟩,
    ⟨rfl, rfl, some (addr 5), rfl, rfl, some (addr 6), rfl, rfl, none, rfl, rfl⟩⟩

end Lemmas

/-! ## The claims -/

section Claims

variable {α : Type}

/-- C1: for every sequence `S`, the initializer-list constructor either throws
`std::bad_alloc` from a node allocation or returns a list whose iteration from
`begin()` to `end()` yields exactly `S` in order and whose `GetSize()` is the
length of `S`; for the empty `S` it always returns, with size 0 and
`begin() == end()`. -/
theorem from_initializer_list_spec (A : Allocator α) (h : Heap α) (S : List α) :
    ((∃ h1, SingleLinkedList.from_initializer_list A h S = Outcome.bad_alloc h1) ∨
      ∃ h1 l as, SingleLinkedList.from_initializer_list A h S = Outcome.ok h1 l ∧
        WellFormed h1 l as S ∧ l.GetSize = S.length ∧
        ∀ fuel, S.length < fuel → l.iterate fuel h1 = Except.ok S) ∧
    (S = [] → ∃ l, SingleLinkedList.from_initializer_list A h S = Outcome.ok h l ∧
      l.GetSize = 0 ∧ l.begin = l.end_) := by
  constructor
  · rcases from_initializer_list_ok A h S with hbad | ⟨h1, l, as, hrun, wf, _, _⟩
    · exact Or.inl hbad
    · exact Or.inr ⟨h1, l, as, hrun, wf, wf.1, fun fuel hf => iterate_of_wf wf fuel hf⟩
  · intro hS
    subst hS
    exact ⟨⟨0, ⟨none⟩⟩, by simp [SingleLinkedList.from_initializer_list, init_loop], rfl, rfl⟩

/-- C1 at the sequence 1, 2, 3 in an empty heap: the constructor returns a list
of size 3 that iterates as {1, 2, 3}. -/
theorem from_initializer_list_spec_witness :
    ∃ h1 l, SingleLinkedList.from_initializer_list demo_alloc (Heap.empty Nat) [1, 2, 3]
        = Outcome.ok h1 l ∧
      l.GetSize = 3 ∧ l.iterate 4 h1 = Except.ok [1, 2, 3] := by
  have hrun0 : SingleLinkedList.from_initializer_list demo_alloc (Heap.empty Nat) [1, 2, 3]
      = Outcome.ok _ _ := rfl
  rcases (from_initializer_list_spec demo_alloc (Heap.empty Nat) [1, 2, 3]).1 with
    ⟨_, hbad⟩ | ⟨h1, l, _, hrun, _, hsize, hit⟩
  · rw [hrun0] at hbad
    cases hbad
  · exact ⟨h1, l, hrun, hsize, hit 4 (by decide)⟩

/-- C2: on a well-formed list with element sequence `L`, `PushFront(v)` (when its
allocation succeeds) returns with element sequence `v :: L`, as the chain shows
and as iteration reports, and `GetSize()` is the previous size plus 1. -/
theorem PushFront_spec (A : Allocator α) (h : Heap α) (l : SingleLinkedList) (as : List Addr)
    (L : List α) (v : α) (a : Addr) (wf : WellFormed h l as L) (halloc : A.pick h = some a) :
    ∃ h1 l1, l.PushFront A h v = Outcome.ok (h1, l1) () ∧
      WellFormed h1 l1 (a :: as) (v :: L) ∧
      (∀ fuel, L.length + 1 < fuel → l1.iterate fuel h1 = Except.ok (v :: L)) ∧
      l1.GetSize = l.GetSize + 1 := by
  obtain ⟨hrun, wf1⟩ := PushFront_ok A h l as L v a wf halloc
  exact ⟨_, _, hrun, wf1, fun fuel hf => iterate_of_wf wf1 fuel (by simpa using hf), rfl⟩

/-- C2 at the list {1, 2, 3}: `PushFront(0)` gives {0, 1, 2, 3} and size 4. -/
theorem PushFront_spec_witness :
    WellFormed demo_heap demo_list [addr 0, addr 1, addr 2] [1, 2, 3] ∧
    demo_alloc.pick demo_heap = some (addr 3) ∧
    ∃ h1 l1, demo_list.PushFront demo_alloc demo_heap 0 = Outcome.ok (h1, l1) () ∧
      l1.iterate 5 h1 = Except.ok [0, 1, 2, 3] ∧ l1.GetSize = 4 :=
  ⟨demo_wf, rfl,
    match PushFront_spec demo_alloc demo_heap demo_list _ _ 0 (addr 3) demo_wf rfl with
    | ⟨h1, l1, hrun, _, hit, hsize⟩ => ⟨h1, l1, hrun, hit 5 (by decide), hsize⟩⟩

/-- C3: on a well-formed list of `k` elements, `InsertAfter(pos, v)` at the
position numbered `i ≤ k` (`before_begin()` advanced `i` times), when its
allocation succeeds, leaves the first `i` old elements, then `v`, then the
other `k - i`; `GetSize()` becomes `k + 1`; the returned iterator dereferences
to `v` and equals `pos` advanced once. -/
theorem InsertAfter_spec (A : Allocator α) (h : Heap α) (l : SingleLinkedList) (as : List Addr)
    (L : List α) (i : Nat) (pos : BasicIterator) (v : α) (a : Addr)
    (wf : WellFormed h l as L) (hi : i ≤ L.length)
    (hpos : advance h l i l.before_begin = Except.ok pos) (halloc : A.pick h = some a) :
    ∃ h1 l1 ret, l.InsertAfter A h pos v = Outcome.ok (h1, l1) ret ∧
      WellFormed h1 l1 (as.take i ++ a :: as.drop i) (L.take i ++ v :: L.drop i) ∧
      (∀ fuel, L.length + 1 < fuel →
        l1.iterate fuel h1 = Except.ok (L.take i ++ v :: L.drop i)) ∧
      l1.GetSize = L.length + 1 ∧ ret.deref h1 = Except.ok v ∧ pos.inc h1 l1 = Except.ok ret := by
  have hp : pos = position as i := by
    rw [advance_before_begin wf i (by omega)] at hpos
    exact (Except.ok.inj hpos).symm
  subst hp
  obtain ⟨h1, l1, nxt, hrun, wf1, hsize, hcell, hnext, _⟩ :=
    InsertAfter_ok A h l as L i v a wf hi halloc
  refine ⟨h1, l1, ⟨Ptr.node a⟩, hrun, wf1, ?_, ?_, ?_, ?_⟩
  · intro fuel hf
    apply iterate_of_wf wf1
    simp
    omega
  · rw [SingleLinkedList.GetSize, hsize, wf.1]
  · simp [BasicIterator.deref, read_value_node hcell]
  · simp [BasicIterator.inc, hnext]

/-- C3 at the list {1, 2, 3}: inserting 9 after the second element gives
{1, 2, 9, 3}, size 4, and an iterator to the 9. -/
theorem InsertAfter_spec_witness :
    WellFormed demo_heap demo_list [addr 0, addr 1, addr 2] [1, 2, 3] ∧
    advance demo_heap demo_list 2 demo_list.before_begin = Except.ok ⟨Ptr.node (addr 1)⟩ ∧
    demo_alloc.pick demo_heap = some (addr 3) ∧
    ∃ h1 l1 ret, demo_list.InsertAfter demo_alloc demo_heap ⟨Ptr.node (addr 1)⟩ 9
        = Outcome.ok (h1, l1) ret ∧
      l1.iterate 5 h1 = Except.ok [1, 2, 9, 3] ∧ l1.GetSize = 4 ∧
      ret.deref h1 = Except.ok 9 :=
  ⟨demo_wf, rfl, rfl,
    match InsertAfter_spec demo_alloc demo_heap demo_list _ _ 2 ⟨Ptr.node (addr 1)⟩ 9 (addr 3)
      demo_wf (by decide) rfl rfl with
    | ⟨h1, l1, ret, hrun, _, hit, hsize, hderef, _⟩ =>
      ⟨h1, l1, ret, hrun, hit 5 (by decide), hsize, hderef⟩⟩

/-- C4: on a well-formed list of `k ≥ 1` elements, `EraseAfter(pos)` at the
position numbered `i < k` returns; it removes exactly the element of index
`i` and keeps the others in order; `GetSize()` becomes `k - 1`; the returned
iterator is `pos` advanced once in the new list, that is the position
numbered `i + 1` there, and it is `end()` when `pos` is now last. -/
theorem EraseAfter_spec (h : Heap α) (l : SingleLinkedList) (as : List Addr) (L : List α)
    (i : Nat) (pos : BasicIterator) (wf : WellFormed h l as L) (hi : i < L.length)
    (hpos : advance h l i l.before_begin = Except.ok pos) :
    ∃ h1 l1 ret, l.EraseAfter h pos = Outcome.ok (h1, l1) ret ∧
      WellFormed h1 l1 (as.eraseIdx i) (L.eraseIdx i) ∧
      (∀ fuel, L.length ≤ fuel → l1.iterate fuel h1 = Except.ok (L.eraseIdx i)) ∧
      l1.GetSize = L.length - 1 ∧
      pos.inc h1 l1 = Except.ok ret ∧
      advance h1 l1 (i + 1) l1.before_begin = Except.ok ret ∧
      (i + 1 = L.length → ret = l1.end_) := by
  have hp : pos = position as i := by
    rw [advance_before_begin wf i (by omega)] at hpos
    exact (Except.ok.inj hpos).symm
  subst hp
  have hlen := Seg.length_eq wf.2
  obtain ⟨h1, l1, hrun, wf1, hsize, hnext, _⟩ := EraseAfter_ok h l as L i wf hi
  rw [← List.eraseIdx_eq_take_drop_succ, ← List.eraseIdx_eq_take_drop_succ] at wf1
  have hlen1 : (L.eraseIdx i).length = L.length - 1 := List.length_eraseIdx_of_lt hi
  refine ⟨h1, l1, ⟨Link.toPtr as[i + 1]?⟩, hrun, wf1, ?_, ?_, ?_, ?_, ?_⟩
  · intro fuel hf
    apply iterate_of_wf wf1
    omega
  · rw [SingleLinkedList.GetSize, hsize, wf.1]
  · simp [BasicIterator.inc, hnext]
  · rw [advance_before_begin wf1 (i + 1) (by omega)]
    simp [position, List.getElem?_eraseIdx]
  · intro hik
    have : as[i + 1]? = none := List.getElem?_eq_none (by omega)
    simp [this, SingleLinkedList.end_]

/-- C4 at the list {1, 2, 3}: erasing after the first element gives {1, 3},
size 2, and an iterator to the 3. -/
theorem EraseAfter_spec_witness :
    WellFormed demo_heap demo_list [addr 0, addr 1, addr 2] [1, 2, 3] ∧
    advance demo_heap demo_list 1 demo_list.before_begin = Except.ok ⟨Ptr.node (addr 0)⟩ ∧
    ∃ h1 l1 ret, demo_list.EraseAfter demo_heap ⟨Ptr.node (addr 0)⟩ = Outcome.ok (h1, l1) ret ∧
      l1.iterate 3 h1 = Except.ok [1, 3] ∧ l1.GetSize = 2 ∧
      advance h1 l1 2 l1.before_begin = Except.ok ret :=
  ⟨demo_wf, rfl,
    match EraseAfter_spec demo_heap demo_list _ _ 1 ⟨Ptr.node (addr 0)⟩ demo_wf (by decide)
      rfl with
    | ⟨h1, l1, ret, hrun, _, hit, hsize, _, hadv, _⟩ =>
      ⟨h1, l1, ret, hrun, hit 3 (by decide), hsize, hadv⟩⟩

/-- C5: `PopFront()` on a non-empty well-formed list returns and removes exactly
the first element (the sequence loses its head, the size decreases by 1); on an
empty list it returns at once, whatever the heap holds (nothing is read),
leaving the list object as it was, with `GetSize()` still 0. -/
theorem PopFront_spec (h : Heap α) (l : SingleLinkedList) (as : List Addr) (L : List α)
    (wf : WellFormed h l as L) :
    (L = [] → l.GetSize = 0 ∧ ∀ h0 : Heap α, l.PopFront h0 = Outcome.ok (h0, l) ()) ∧
    (L ≠ [] → ∃ h1 l1, l.PopFront h = Outcome.ok (h1, l1) () ∧
      WellFormed h1 l1 as.tail L.tail ∧
      (∀ fuel, L.length ≤ fuel → l1.iterate fuel h1 = Except.ok L.tail) ∧
      l1.GetSize + 1 = l.GetSize) := by
  constructor
  · intro hL
    subst hL
    have hz : l.size_ = 0 := wf.1
    exact ⟨hz, fun h0 => by simp [SingleLinkedList.PopFront, hz]⟩
  · intro hL
    have hpos : 0 < L.length := List.length_pos.mpr hL
    obtain ⟨h1, l1, hrun, wf1, hsize, _, _⟩ := EraseAfter_ok h l as L 0 wf hpos
    have hne : l.size_ ≠ 0 := by rw [wf.1]; omega
    have wf2 : WellFormed h1 l1 as.tail L.tail := by simpa using wf1
    refine ⟨h1, l1, ?_, wf2, ?_, ?_⟩
    · have hrun0 : l.EraseAfter h ⟨Ptr.head⟩ = Outcome.ok (h1, l1) ⟨Link.toPtr as[0 + 1]?⟩ := hrun
      simp [SingleLinkedList.PopFront, hne, hrun0]
    · intro fuel hf
      apply iterate_of_wf wf2
      simp
      omega
    · rw [SingleLinkedList.GetSize, SingleLinkedList.GetSize, hsize]
      omega

/-- C5 at the list {1, 2, 3}: `PopFront()` gives {2, 3} and size 2. -/
theorem PopFront_spec_witness :
    WellFormed demo_heap demo_list [addr 0, addr 1, addr 2] [1, 2, 3] ∧
    ∃ h1 l1, demo_list.PopFront demo_heap = Outcome.ok (h1, l1) () ∧
      l1.iterate 3 h1 = Except.ok [2, 3] ∧ l1.GetSize + 1 = 3 :=
  ⟨demo_wf,
    match (PopFront_spec demo_heap demo_list _ _ demo_wf).2 (by decide) with
    | ⟨h1, l1, hrun, _, hit, hsize⟩ => ⟨h1, l1, hrun, hit 3 (by decide), hsize⟩⟩

/-- C6: on a well-formed list, `InsertAfter(before_begin(), v)` and `PushFront(v)`
have the same outcome (both return, or both throw `std::bad_alloc`) and the
same resulting state: the same heap, the same head link and the same size,
hence the same element sequence; and the iterator `InsertAfter` returns is
`begin()` of the resulting list. -/
theorem InsertAfter_before_begin_eq_PushFront (A : Allocator α) (h : Heap α)
    (l : SingleLinkedList) (as : List Addr) (L : List α) (v : α) (wf : WellFormed h l as L) :
    (l.InsertAfter A h l.before_begin v).discard = l.PushFront A h v ∧
    ∀ s ret, l.InsertAfter A h l.before_begin v = Outcome.ok s ret →
      ret = s.2.begin ∧ s.2.GetSize = L.length + 1 ∧
      ∀ fuel, L.length + 1 < fuel → s.2.iterate fuel s.1 = Except.ok (v :: L) := by
  cases hpick : A.pick h with
  | none =>
    constructor
    · simp [SingleLinkedList.InsertAfter, SingleLinkedList.PushFront,
        SingleLinkedList.before_begin, read_next_head, new_node_none hpick, Outcome.discard]
    · intro s ret hrun
      simp [SingleLinkedList.InsertAfter, SingleLinkedList.before_begin, read_next_head,
        new_node_none hpick] at hrun
  | some a =>
    obtain ⟨h1, l1, nxt, hrun, wf1, hsize, _, _, hzero⟩ :=
      InsertAfter_ok A h l as L 0 v a wf (Nat.zero_le _) hpick
    obtain ⟨hh, hhead⟩ := hzero rfl
    obtain ⟨hpush, _⟩ := PushFront_ok A h l as L v a wf hpick
    have hrun0 : l.InsertAfter A h l.before_begin v = Outcome.ok (h1, l1) ⟨Ptr.node a⟩ := hrun
    have hl1 : l1 = ⟨l.size_ + 1, ⟨some a⟩⟩ := by
      cases l1 with
      | mk sz hd =>
        simp only at hsize hhead
        rw [hsize, hhead]
    constructor
    · rw [hrun0, hpush, hh, hl1]
      rfl
    · intro s ret hs
      rw [hrun0] at hs
      cases hs
      refine ⟨?_, ?_, ?_⟩
      · have := begin_of_wf wf1
        simp only at this ⊢
        rw [this, hhead]
        rfl
      · simp [SingleLinkedList.GetSize, hsize, wf.1]
      · intro fuel hf
        have := iterate_of_wf wf1 fuel (by simpa using hf)
        simpa using this

/-- C6 at the list {1, 2, 3}: both calls return in a state that iterates as
{0, 1, 2, 3}. -/
theorem InsertAfter_before_begin_eq_PushFront_witness :
    WellFormed demo_heap demo_list [addr 0, addr 1, addr 2] [1, 2, 3] ∧
    (demo_list.InsertAfter demo_alloc demo_heap demo_list.before_begin 0).discard
      = demo_list.PushFront demo_alloc demo_heap 0 ∧
    (demo_list.PushFront demo_alloc demo_heap 0).state?.map (fun s => s.2.iterate 5 s.1)
      = some (Except.ok [0, 1, 2, 3]) :=
  ⟨demo_wf, (InsertAfter_before_begin_eq_PushFront demo_alloc demo_heap demo_list _ _ 0 demo_wf).1,
    rfl⟩

/-- C7: on every list whose sentinel starts a finite null-terminated chain (in
particular on every well-formed list, whatever `size_` holds), `Clear()` run
with more fuel than the chain has nodes returns, so its loop terminates, and
afterwards `IsEmpty()` is true, `GetSize()` is 0 and `begin()` equals `end()`;
the list is the well-formed empty list and every node of the chain is freed. -/
theorem Clear_spec (h : Heap α) (l : SingleLinkedList) (as : List Addr) (L : List α)
    (fuel : Nat) (hc : Chain h l.head_.next_node as L) (hf : L.length < fuel) :
    ∃ h1 l1, l.Clear fuel h = Outcome.ok (h1, l1) () ∧
      l1.IsEmpty = true ∧ l1.GetSize = 0 ∧ l1.begin = l1.end_ ∧
      WellFormed h1 l1 [] ([] : List α) ∧ (∀ a ∈ as, h1 a = none) := by
  obtain ⟨h1, hrun, hfreed, _⟩ := Clear_ok h l as L hc fuel hf
  exact ⟨h1, ⟨0, ⟨none⟩⟩, hrun, rfl, rfl, rfl, ⟨rfl, rfl⟩, hfreed⟩

/-- C7 at the list {1, 2, 3}: `Clear()` with fuel 4 returns the empty list. -/
theorem Clear_spec_witness :
    WellFormed demo_heap demo_list [addr 0, addr 1, addr 2] [1, 2, 3] ∧
    ∃ h1 l1, demo_list.Clear 4 demo_heap = Outcome.ok (h1, l1) () ∧
      l1.IsEmpty = true ∧ l1.GetSize = 0 ∧ l1.begin = l1.end_ :=
  ⟨demo_wf,
    match Clear_spec demo_heap demo_list _ _ 4 demo_wf.2 (by decide) with
    | ⟨h1, l1, hrun, he, hs, hb, _, _⟩ => ⟨h1, l1, hrun, he, hs, hb⟩⟩

/-- C8: copy-constructing `B` from a well-formed list `A` (with more fuel than
`A` has elements) either throws `std::bad_alloc` or returns a well-formed `B`
with the same size and the same elements in the same order, so that `A == B`
is true for every element `!=` that is false on equal values; `B` shares no
node with `A`, `A` is still well formed with its sequence, and a later
`PushFront` on `B` leaves the size and the element sequence of `A` as they were. -/
theorem copy_spec (A : Allocator α) (fuel : Nat) (h : Heap α)
    (a : SingleLinkedList) (as : List Addr) (L : List α) (wf : WellFormed h a as L)
    (hf : L.length < fuel) :
    (∃ h1, a.copy A fuel h = Outcome.bad_alloc h1) ∨
    ∃ h1 b bs, a.copy A fuel h = Outcome.ok h1 b ∧
      WellFormed h1 a as L ∧ WellFormed h1 b bs L ∧ (∀ x ∈ bs, x ∉ as) ∧
      b.GetSize = a.GetSize ∧ b.iterate fuel h1 = Except.ok L ∧
      (∀ ne : α → α → Bool, (∀ x, ne x x = false) →
        operator_eq ne fuel h1 a b = Except.ok true) ∧
      ∀ (v : α) (c : Addr), A.pick h1 = some c →
        ∃ h2 b2, b.PushFront A h1 v = Outcome.ok (h2, b2) () ∧
          b2.iterate (fuel + 1) h2 = Except.ok (v :: L) ∧
          WellFormed h2 a as L ∧ a.GetSize = L.length ∧ a.iterate fuel h2 = Except.ok L := by
  rcases copy_ok A fuel h a as L wf hf with
    ⟨h1, hcopy, _⟩ | ⟨h1, b, bs, hcopy, wfb, hsize, hframe, hfresh⟩
  · exact Or.inl ⟨h1, hcopy⟩
  · right
    have wfa1 : WellFormed h1 a as L := wf.keep hframe
    refine ⟨h1, b, bs, hcopy, wfa1, wfb, ?_, hsize, iterate_of_wf wfb fuel hf,
      fun ne hne => operator_eq_same ne hne wfa1 wfb fuel hf, ?_⟩
    · intro x hx hxa
      exact Seg.live wf.2 x hxa (hfresh x hx)
    · intro v c hpick
      obtain ⟨hrun, wfb2⟩ := PushFront_ok A h1 b bs L v c wfb hpick
      have hfree := A.pick_free h1 c hpick
      have wfa2 : WellFormed (h1.set c (some ⟨v, b.head_.next_node⟩)) a as L := by
        refine wfa1.keep ?_
        intro x hx
        have hxc : x ≠ c := fun e => hx (e ▸ hfree)
        exact Heap.set_other _ _ hxc
      exact ⟨_, _, hrun, iterate_of_wf wfb2 (fuel + 1) (by simpa using hf), wfa2, wf.1,
        iterate_of_wf wfa2 fuel hf⟩

/-- C8 at the list {1, 2, 3}: the copy returns, iterates as {1, 2, 3}, compares
equal to the source, and after `PushFront(0)` on the copy the source still
iterates as {1, 2, 3}. -/
theorem copy_spec_witness :
    WellFormed demo_heap demo_list [addr 0, addr 1, addr 2] [1, 2, 3] ∧
    ∃ h1 b, demo_list.copy demo_alloc 4 demo_heap = Outcome.ok h1 b ∧
      b.iterate 4 h1 = Except.ok [1, 2, 3] ∧
      operator_eq (fun x y => x != y) 4 h1 demo_list b = Except.ok true ∧
      ∃ h2 b2, b.PushFront demo_alloc h1 0 = Outcome.ok (h2, b2) () ∧
        b2.iterate 5 h2 = Except.ok [0, 1, 2, 3] ∧
        demo_list.iterate 4 h2 = Except.ok [1, 2, 3] :=
  by
  refine ⟨demo_wf, ?_⟩
  have hcopy : demo_list.copy demo_alloc 4 demo_heap = Outcome.ok _ _ := rfl
  rcases copy_spec demo_alloc 4 demo_heap demo_list _ _ demo_wf (by decide) with
    ⟨_, hbad⟩ | ⟨h1, b, _, hrun, _, _, _, _, hit, heq, hpush⟩
  · rw [hcopy] at hbad
    cases hbad
  · rw [hcopy] at hrun
    cases hrun
    obtain ⟨h2, b2, hrun2, hit2, _, _, hita⟩ := hpush 0 (addr 6) rfl
    exact ⟨_, _, hcopy, hit, heq _ (by simp), h2, b2, hrun2, hit2, hita⟩

/-- C9: for two distinct well-formed lists `a` (object `this`) and `b` (object
`rhs`) that share no node, copy assignment `a = b` run with more fuel than
either has elements either throws `std::bad_alloc` or returns; when it
returns, the element sequence and the size of `a` are those of `b`, `a == b`
is true (for every element `!=` that is false on equal values), and the
object `b`, its element sequence and its size are unchanged. -/
theorem operator_assign_spec (A : Allocator α) (fuel : Nat)
    (m : Memory α) (this rhs : Nat) (as bs : List Addr) (La Lb : List α) (hd : this ≠ rhs)
    (wfa : WellFormed m.heap (m.lists this) as La)
    (wfb : WellFormed m.heap (m.lists rhs) bs Lb) (hsep : ∀ x ∈ as, x ∉ bs)
    (hfa : La.length < fuel) (hfb : Lb.length < fuel) :
    (∃ m1, operator_assign A fuel m this rhs = Outcome.bad_alloc m1) ∨
    ∃ m1 cs, operator_assign A fuel m this rhs = Outcome.ok m1 () ∧
      WellFormed m1.heap (m1.lists this) cs Lb ∧
      (m1.lists this).iterate fuel m1.heap = Except.ok Lb ∧
      (m1.lists this).GetSize = (m.lists rhs).GetSize ∧
      (∀ ne : α → α → Bool, (∀ x, ne x x = false) →
        operator_eq ne fuel m1.heap (m1.lists this) (m1.lists rhs) = Except.ok true) ∧
      m1.lists rhs = m.lists rhs ∧
      WellFormed m1.heap (m1.lists rhs) bs Lb ∧
      (m1.lists rhs).iterate fuel m1.heap = Except.ok Lb := by
  rcases operator_assign_ok A fuel m this rhs as bs La Lb hd wfa wfb hsep hfa hfb with
    ⟨h1, _, hrun, _⟩ | ⟨m1, cs, hrun, wf1, wf2, hsize, hothers, _, _⟩
  · exact Or.inl ⟨_, hrun⟩
  · exact Or.inr ⟨m1, cs, hrun, wf1, iterate_of_wf wf1 fuel hfb, hsize,
      fun ne hne => operator_eq_same ne hne wf1 wf2 fuel hfb, hothers rhs (Ne.symm hd), wf2,
      iterate_of_wf wf2 fuel hfb⟩

/-- C9 at the lists {1, 2, 3} and {7, 8}: the assignment returns, the target
iterates as {7, 8} with size 2 and compares equal to the source, which still
iterates as {7, 8}. -/
theorem operator_assign_spec_witness :
    ∃ m1, operator_assign demo_alloc 4 demo_memory 0 1 = Outcome.ok m1 () ∧
      (m1.lists 0).iterate 4 m1.heap = Except.ok [7, 8] ∧
      (m1.lists 0).GetSize = 2 ∧
      operator_eq (fun x y => x != y) 4 m1.heap (m1.lists 0) (m1.lists 1) = Except.ok true ∧
      (m1.lists 1).iterate 4 m1.heap = Except.ok [7, 8] := by
  have hrun0 : operator_assign demo_alloc 4 demo_memory 0 1 = Outcome.ok _ () := rfl
  rcases operator_assign_spec demo_alloc 4 demo_memory 0 1 _ _ _ _
      (by decide) demo_memory_wf.1 demo_memory_wf.2 (by simp [addr]) (by decide) (by decide)
      with ⟨_, hbad⟩ | ⟨m1, _, hrun, _, hit, hsize, heq, _, _, hitb⟩
  · rw [hrun0] at hbad
    cases hbad
  · exact ⟨m1, hrun, hit, hsize, heq _ (by simp), hitb⟩

/-- C10: if the copy of `b` (object `rhs`) that copy assignment `a = b` builds
fails with `std::bad_alloc`, then (for `a` a different object) the assignment
itself ends with that exception, and in every case `a` (object `this`) is left
unmodified: the same object (head link and size), still well formed on the
same nodes with the same element sequence. -/
theorem operator_assign_strong_guarantee (A : Allocator α) (fuel : Nat) (m : Memory α)
    (this rhs : Nat) (as bs : List Addr) (La Lb : List α) (h1 : Heap α)
    (wfa : WellFormed m.heap (m.lists this) as La)
    (wfb : WellFormed m.heap (m.lists rhs) bs Lb) (hfb : Lb.length < fuel)
    (hfail : (m.lists rhs).copy A fuel m.heap = Outcome.bad_alloc h1) :
    ∃ m1, (this ≠ rhs → operator_assign A fuel m this rhs = Outcome.bad_alloc m1) ∧
      (this = rhs → operator_assign A fuel m this rhs = Outcome.ok m1 ()) ∧
      m1.lists this = m.lists this ∧
      WellFormed m1.heap (m1.lists this) as La ∧
      ∀ f, La.length < f → (m1.lists this).iterate f m1.heap = Except.ok La := by
  by_cases hd : this = rhs
  · exact ⟨m, fun hne => absurd hd hne, fun _ => by simp [operator_assign, hd], rfl, wfa,
      fun f hf => iterate_of_wf wfa f hf⟩
  · rcases copy_ok A fuel m.heap (m.lists rhs) bs Lb wfb hfb with
      ⟨h2, hcopy, hframe⟩ | ⟨h2, l, cs, hcopy, _⟩
    · rw [hfail] at hcopy
      cases hcopy
      have wf1 : WellFormed h1 (m.lists this) as La := wfa.keep hframe
      exact ⟨⟨h1, m.lists⟩, fun _ => by simp [operator_assign, hd, hfail],
        fun e => absurd e hd, rfl, wf1, fun f hf => iterate_of_wf wf1 f hf⟩
    · rw [hfail] at hcopy
      cases hcopy

/-- C10 at the lists {1, 2, 3} and {7, 8} with a single free cell: the second
allocation of the copy fails, the assignment throws, and the target is the
same object and still iterates as {1, 2, 3}. -/
theorem operator_assign_strong_guarantee_witness :
    ∃ m1, operator_assign (arena_allocator Nat 6) 4 demo_memory 0 1 = Outcome.bad_alloc m1 ∧
      m1.lists 0 = demo_list ∧ (m1.lists 0).iterate 4 m1.heap = Except.ok [1, 2, 3] := by
  have hfail : (demo_memory.lists 1).copy (arena_allocator Nat 6) 4 demo_memory.heap
      = Outcome.bad_alloc _ := rfl
  obtain ⟨m1, hrun, _, hsame, _, hit⟩ :=
    operator_assign_strong_guarantee (arena_allocator Nat 6) 4 demo_memory 0 1 _ _ _ _ _
      demo_memory_wf.1 demo_memory_wf.2 (by decide) hfail
  exact ⟨m1, hrun (by decide), hsame, hit 4 (by decide)⟩

/-- C11: self-assignment `a = a` returns at once with the memory as it was: the
same heap and the same object, hence for a well-formed `a` the same element
sequence in the same order and the same size. -/
theorem operator_assign_self (A : Allocator α) (fuel : Nat) (m : Memory α) (this : Nat)
    (as : List Addr) (L : List α) (wf : WellFormed m.heap (m.lists this) as L) :
    ∃ m1, operator_assign A fuel m this this = Outcome.ok m1 () ∧
      m1.heap = m.heap ∧ m1.lists this = m.lists this ∧
      WellFormed m1.heap (m1.lists this) as L ∧ (m1.lists this).GetSize = L.length ∧
      ∀ f, L.length < f → (m1.lists this).iterate f m1.heap = Except.ok L :=
  ⟨m, by simp [operator_assign], rfl, rfl, wf, wf.1, fun f hf => iterate_of_wf wf f hf⟩

/-- C11 at the list {1, 2, 3}: self-assignment returns (even with no fuel) and
the list still iterates as {1, 2, 3} with size 3. -/
theorem operator_assign_self_witness :
    ∃ m1, operator_assign demo_alloc 0 demo_memory 0 0 = Outcome.ok m1 () ∧
      (m1.lists 0).GetSize = 3 ∧ (m1.lists 0).iterate 4 m1.heap = Except.ok [1, 2, 3] :=
  match operator_assign_self demo_alloc 0 demo_memory 0 _ _ demo_memory_wf.1 with
  | ⟨m1, hrun, _, _, _, hsize, hit⟩ => ⟨m1, hrun, hsize, hit 4 (by decide)⟩

/-- C12: for two well-formed lists `A` and `B` (objects `a` and `b`, possibly the
same object), the free function `swap(A, B)` is the member `swap`, it leaves
the heap alone, and afterwards `A` is the former `B` and `B` the former `A`:
each has the other's former element sequence and size. -/
theorem swap_spec (m : Memory α) (a b : Nat) (as bs : List Addr) (La Lb : List α)
    (wfa : WellFormed m.heap (m.lists a) as La) (wfb : WellFormed m.heap (m.lists b) bs Lb) :
    swap m a b = member_swap m a b ∧ (swap m a b).heap = m.heap ∧
    (swap m a b).lists a = m.lists b ∧ (swap m a b).lists b = m.lists a ∧
    WellFormed (swap m a b).heap ((swap m a b).lists a) bs Lb ∧
    WellFormed (swap m a b).heap ((swap m a b).lists b) as La ∧
    ((swap m a b).lists a).GetSize = Lb.length ∧ ((swap m a b).lists b).GetSize = La.length ∧
    ∀ f, La.length < f → Lb.length < f →
      ((swap m a b).lists a).iterate f (swap m a b).heap = Except.ok Lb ∧
      ((swap m a b).lists b).iterate f (swap m a b).heap = Except.ok La := by
  obtain ⟨hh, ha, hb, _⟩ := member_swap_ok m a b
  have hh1 : (swap m a b).heap = m.heap := hh
  have ha1 : (swap m a b).lists a = m.lists b := ha
  have hb1 : (swap m a b).lists b = m.lists a := hb
  rw [hh1, ha1, hb1]
  exact ⟨rfl, rfl, rfl, rfl, wfb, wfa, wfb.1, wfa.1,
    fun f h1 h2 => ⟨iterate_of_wf wfb f h2, iterate_of_wf wfa f h1⟩⟩

/-- C12 at the lists {1, 2, 3} and {7, 8}: after `swap` the first iterates as
{7, 8} with size 2 and the second as {1, 2, 3} with size 3. -/
theorem swap_spec_witness :
    ((swap demo_memory 0 1).lists 0).iterate 4 (swap demo_memory 0 1).heap = Except.ok [7, 8] ∧
    ((swap demo_memory 0 1).lists 1).iterate 4 (swap demo_memory 0 1).heap
      = Except.ok [1, 2, 3] ∧
    ((swap demo_memory 0 1).lists 0).GetSize = 2 ∧
    ((swap demo_memory 0 1).lists 1).GetSize = 3 :=
  match swap_spec demo_memory 0 1 _ _ _ _ demo_memory_wf.1 demo_memory_wf.2 with
  | ⟨_, _, _, _, _, _, hs1, hs2, hit⟩ =>
    ⟨(hit 4 (by decide) (by decide)).1, (hit 4 (by decide) (by decide)).2, hs1, hs2⟩

/-- C13: for two well-formed lists over an element type whose `!=` is the
negation of its `==`, `operator==` (with more fuel than the left list has
elements) returns, and it returns true exactly when the sizes are equal and
the elements are `==` index by index in order; `operator!=` returns the
negation. -/
theorem operator_eq_spec (eq ne : α → α → Bool) (fuel : Nat) (h : Heap α)
    (a b : SingleLinkedList) (as bs : List Addr) (La Lb : List α)
    (wfa : WellFormed h a as La) (wfb : WellFormed h b bs Lb)
    (hne : ∀ x y, ne x y = !eq x y) (hf : La.length < fuel) :
    ∃ r, operator_eq ne fuel h a b = Except.ok r ∧
      (r = true ↔ a.GetSize = b.GetSize ∧
        ∀ (i : Nat) (x y : α), La[i]? = some x → Lb[i]? = some y → eq x y = true) ∧
      operator_ne ne fuel h a b = Except.ok (!r) := by
  have hrun := operator_eq_chain ne wfa wfb fuel
  by_cases hlen : La.length = Lb.length
  · have hsteps : (first_diff ne La Lb).getD La.length < fuel := by
      cases hfd : first_diff ne La Lb with
      | none => simpa using hf
      | some d =>
        have := first_diff_lt ne La Lb d hfd
        simp
        omega
    rw [if_neg (by simpa using hlen), if_pos hsteps] at hrun
    refine ⟨(first_diff ne La Lb).isNone, hrun, ?_, by simp [operator_ne, hrun]⟩
    rw [Option.isNone_iff_eq_none, first_diff_none_iff]
    simp only [SingleLinkedList.GetSize, wfa.1, wfb.1, hlen, true_and]
    constructor
    · intro hall i x y hx hy
      have := hall i x y hx hy
      rw [hne] at this
      simpa using this
    · intro hall i x y hx hy
      rw [hne, hall i x y hx hy]
      rfl
  · rw [if_pos hlen] at hrun
    refine ⟨false, hrun, ?_, by simp [operator_ne, hrun]⟩
    simp [SingleLinkedList.GetSize, wfa.1, wfb.1, hlen]

/-- C13 at the lists {1, 2} and {1, 3}: `==` is false and `!=` is true; and
{1, 2} equals itself. -/
theorem operator_eq_spec_witness :
    operator_eq (fun x y => x != y) 3 cmp_heap cmp_a cmp_b = Except.ok false ∧
    operator_ne (fun x y => x != y) 3 cmp_heap cmp_a cmp_b = Except.ok true ∧
    operator_eq (fun x y => x != y) 3 cmp_heap cmp_a cmp_a = Except.ok true ∧
    ∃ r, operator_eq (fun x y => x != y) 3 cmp_heap cmp_a cmp_b = Except.ok r ∧
      (r = true ↔ cmp_a.GetSize = cmp_b.GetSize ∧
        ∀ (i : Nat) (x y : Nat), [1, 2][i]? = some x → [1, 3][i]? = some y → (x == y) = true) :=
  ⟨rfl, rfl, rfl,
    match operator_eq_spec (fun x y => x == y) (fun x y => x != y) 3 cmp_heap cmp_a cmp_b
      _ _ _ _ cmp_wf.1 cmp_wf.2.1 (fun _ _ => rfl) (by decide) with
    | ⟨r, hrun, hiff, _⟩ => ⟨r, hrun, hiff⟩⟩

/-- C14: for two well-formed lists over a linearly ordered element type,
`l < r` (with more fuel than the shorter list has elements) returns, and it
returns true exactly when `l` is lexicographically less than `r`: some index
smaller than both lengths has equal elements before it and `l[i] < r[i]`, or
`l` is a proper prefix of `r`. -/
theorem operator_lt_spec [LinearOrder α] (fuel : Nat) (h : Heap α) (l r : SingleLinkedList)
    (as bs : List Addr) (Ll Lr : List α) (wl : WellFormed h l as Ll)
    (wr : WellFormed h r bs Lr) (hf : min Ll.length Lr.length < fuel) :
    ∃ res, operator_lt elem_lt elem_gt fuel h l r = Except.ok res ∧
      (res = true ↔
        (∃ (i : Nat) (x y : α), Ll[i]? = some x ∧ Lr[i]? = some y ∧
          Ll.take i = Lr.take i ∧ x < y) ∨
        (Ll.length < Lr.length ∧ Lr.take Ll.length = Ll)) :=
  ⟨lexLt elem_lt elem_gt Ll Lr, operator_lt_chain elem_lt elem_gt wl wr fuel hf,
    lexLt_iff Ll Lr⟩

/-- C14 at the lists {1, 2}, {1, 3} and {1, 3, 5}: {1, 2} < {1, 3} by the
element of index 1, {1, 3} < {1, 3, 5} as a proper prefix, and neither
converse holds. -/
theorem operator_lt_spec_witness :
    operator_lt elem_lt elem_gt 3 cmp_heap cmp_a cmp_b = Except.ok true ∧
    operator_lt elem_lt elem_gt 3 cmp_heap cmp_b cmp_a = Except.ok false ∧
    operator_lt elem_lt elem_gt 3 cmp_heap cmp_b cmp_c = Except.ok true ∧
    operator_lt elem_lt elem_gt 3 cmp_heap cmp_c cmp_b = Except.ok false ∧
    ∃ res, operator_lt elem_lt elem_gt 3 cmp_heap cmp_a cmp_b = Except.ok res ∧
      (res = true ↔
        (∃ (i : Nat) (x y : Nat), [1, 2][i]? = some x ∧ [1, 3][i]? = some y ∧
          [1, 2].take i = [1, 3].take i ∧ x < y) ∨
        ([1, 2].length < [1, 3].length ∧ [1, 3].take [1, 2].length = [1, 2])) :=
  ⟨rfl, rfl, rfl, rfl,
    operator_lt_spec 3 cmp_heap cmp_a cmp_b _ _ _ _ cmp_wf.1 cmp_wf.2.1 (by decide)⟩

/-- C15: for two well-formed lists over a linearly ordered element type (with
more fuel than either has elements) the derived comparisons return and agree
with `<` and `==`: `a <= b` is `a < b || a == b`, `a > b` is `b < a`, and
`a >= b` is `a > b || a == b`. -/
theorem derived_comparisons_spec [LinearOrder α] (fuel : Nat) (h : Heap α)
    (a b : SingleLinkedList) (as bs : List Addr) (La Lb : List α)
    (wfa : WellFormed h a as La) (wfb : WellFormed h b bs Lb)
    (hfa : La.length < fuel) (hfb : Lb.length < fuel) :
    ∃ lt_ab lt_ba eq_ab,
      operator_lt elem_lt elem_gt fuel h a b = Except.ok lt_ab ∧
      operator_lt elem_lt elem_gt fuel h b a = Except.ok lt_ba ∧
      operator_eq elem_ne fuel h a b = Except.ok eq_ab ∧
      operator_le elem_lt elem_gt fuel h a b = Except.ok (lt_ab || eq_ab) ∧
      operator_gt elem_lt elem_gt fuel h a b = Except.ok lt_ba ∧
      operator_ge elem_lt elem_gt fuel h a b = Except.ok (lt_ba || eq_ab) := by
  obtain ⟨h1, h2, h3⟩ := compare_ok wfa wfb fuel hfa hfb
  refine ⟨_, _, _, h1, h2, h3, ?_, h2, ?_⟩
  · rcases lexLt_trichotomy La Lb with ⟨t1, t2, t3⟩ | ⟨t1, t2, t3⟩ | ⟨t1, t2, t3⟩
    · simp [operator_le, h2, t1, t2, t3]
    · subst t2
      simp [operator_le, h2, t1]
    · simp [operator_le, h2, t1, t2, t3]
  · rcases lexLt_trichotomy La Lb with ⟨t1, t2, t3⟩ | ⟨t1, t2, t3⟩ | ⟨t1, t2, t3⟩
    · simp [operator_ge, h1, t1, t2, t3]
    · subst t2
      simp [operator_ge, h1, t1]
    · simp [operator_ge, h1, t1, t2, t3]

/-- C15 at the lists {1, 2} and {1, 3}: `<=` is true, `>` is false and `>=` is
false, as `<` is true and `==` is false. -/
theorem derived_comparisons_spec_witness :
    operator_le elem_lt elem_gt 3 cmp_heap cmp_a cmp_b = Except.ok true ∧
    operator_gt elem_lt elem_gt 3 cmp_heap cmp_a cmp_b = Except.ok false ∧
    operator_ge elem_lt elem_gt 3 cmp_heap cmp_a cmp_b = Except.ok false ∧
    operator_le elem_lt elem_gt 3 cmp_heap cmp_a cmp_a = Except.ok true ∧
    ∃ lt_ab lt_ba eq_ab,
      operator_lt elem_lt elem_gt 3 cmp_heap cmp_a cmp_b = Except.ok lt_ab ∧
      operator_lt elem_lt elem_gt 3 cmp_heap cmp_b cmp_a = Except.ok lt_ba ∧
      operator_eq elem_ne 3 cmp_heap cmp_a cmp_b = Except.ok eq_ab ∧
      operator_le elem_lt elem_gt 3 cmp_heap cmp_a cmp_b = Except.ok (lt_ab || eq_ab) :=
  ⟨rfl, rfl, rfl, rfl,
    match derived_comparisons_spec 3 cmp_heap cmp_a cmp_b _ _ _ _ cmp_wf.1 cmp_wf.2.1
      (by decide) (by decide) with
    | ⟨x, y, z, h1, h2, h3, h4, _, _⟩ => ⟨x, y, z, h1, h2, h3, h4⟩⟩

/-- C16: the size invariant (`size_` is the number of nodes on the chain from
the sentinel) holds after the default, the initializer-list and the copy
constructor, and PushFront, PopFront, InsertAfter and EraseAfter (at a
position of the list that has a successor to erase), Clear, copy assignment
and swap take states with the invariant to states with the invariant; so do
the exceptions they can end in. Calls with a loop are given more fuel than
the lists have elements, and they return. -/
theorem size_invariant_spec (A : Allocator α) :
    (∀ h : Heap α, SizeInvariant h SingleLinkedList.empty) ∧
    (∀ (h : Heap α) (S : List α),
      (∃ h1, SingleLinkedList.from_initializer_list A h S = Outcome.bad_alloc h1) ∨
      ∃ h1 l, SingleLinkedList.from_initializer_list A h S = Outcome.ok h1 l ∧
        SizeInvariant h1 l) ∧
    (∀ (fuel : Nat) (h : Heap α) (other : SingleLinkedList),
      SizeInvariant h other → other.size_ < fuel →
      (∃ h1, other.copy A fuel h = Outcome.bad_alloc h1 ∧ SizeInvariant h1 other) ∨
      ∃ h1 l, other.copy A fuel h = Outcome.ok h1 l ∧ SizeInvariant h1 l ∧
        SizeInvariant h1 other) ∧
    (∀ (h : Heap α) (l : SingleLinkedList) (v : α), SizeInvariant h l →
      l.PushFront A h v = Outcome.bad_alloc (h, l) ∨
      ∃ h1 l1, l.PushFront A h v = Outcome.ok (h1, l1) () ∧ SizeInvariant h1 l1) ∧
    (∀ (h : Heap α) (l : SingleLinkedList), SizeInvariant h l →
      ∃ h1 l1, l.PopFront h = Outcome.ok (h1, l1) () ∧ SizeInvariant h1 l1) ∧
    (∀ (h : Heap α) (l : SingleLinkedList) (i : Nat) (pos : BasicIterator) (v : α),
      SizeInvariant h l → i ≤ l.size_ → advance h l i l.before_begin = Except.ok pos →
      l.InsertAfter A h pos v = Outcome.bad_alloc (h, l) ∨
      ∃ h1 l1 r, l.InsertAfter A h pos v = Outcome.ok (h1, l1) r ∧ SizeInvariant h1 l1) ∧
    (∀ (h : Heap α) (l : SingleLinkedList) (i : Nat) (pos : BasicIterator),
      SizeInvariant h l → i < l.size_ → advance h l i l.before_begin = Except.ok pos →
      ∃ h1 l1 r, l.EraseAfter h pos = Outcome.ok (h1, l1) r ∧ SizeInvariant h1 l1) ∧
    (∀ (fuel : Nat) (h : Heap α) (l : SingleLinkedList), SizeInvariant h l → l.size_ < fuel →
      ∃ h1 l1, l.Clear fuel h = Outcome.ok (h1, l1) () ∧ SizeInvariant h1 l1) ∧
    (∀ (fuel : Nat) (m : Memory α) (this rhs : Nat) (as bs : List Addr) (La Lb : List α),
      WellFormed m.heap (m.lists this) as La → WellFormed m.heap (m.lists rhs) bs Lb →
      (this ≠ rhs → ∀ x ∈ as, x ∉ bs) → La.length < fuel → Lb.length < fuel →
      ∃ m1, (operator_assign A fuel m this rhs = Outcome.ok m1 () ∨
          operator_assign A fuel m this rhs = Outcome.bad_alloc m1) ∧
        SizeInvariant m1.heap (m1.lists this) ∧ SizeInvariant m1.heap (m1.lists rhs)) ∧
    (∀ (m : Memory α) (a b : Nat),
      SizeInvariant m.heap (m.lists a) → SizeInvariant m.heap (m.lists b) →
      SizeInvariant (swap m a b).heap ((swap m a b).lists a) ∧
      SizeInvariant (swap m a b).heap ((swap m a b).lists b)) := by
  refine ⟨?_, ?_, ?_, ?_, ?_, ?_, ?_, ?_, ?_, ?_⟩
  · intro h
    exact ⟨[], [], rfl, rfl⟩
  · intro h S
    rcases from_initializer_list_ok A h S with hbad | ⟨h1, l, as, hrun, wf, _, _⟩
    · exact Or.inl hbad
    · exact Or.inr ⟨h1, l, hrun, SizeInvariant.of_wf wf⟩
  · intro fuel h other inv hf
    obtain ⟨os, ys, wf⟩ := inv.to_wf
    rcases copy_ok A fuel h other os ys wf (by rw [← wf.1]; exact hf) with
      ⟨h1, hrun, hframe⟩ | ⟨h1, l, bs, hrun, wfl, _, hframe, _⟩
    · exact Or.inl ⟨h1, hrun, SizeInvariant.of_wf (wf.keep hframe)⟩
    · exact Or.inr ⟨h1, l, hrun, SizeInvariant.of_wf wfl, SizeInvariant.of_wf (wf.keep hframe)⟩
  · intro h l v inv
    obtain ⟨as, L, wf⟩ := inv.to_wf
    cases hpick : A.pick h with
    | none =>
      left
      simp [SingleLinkedList.PushFront, new_node_none hpick]
    | some a =>
      obtain ⟨hrun, wf1⟩ := PushFront_ok A h l as L v a wf hpick
      exact Or.inr ⟨_, _, hrun, SizeInvariant.of_wf wf1⟩
  · intro h l inv
    obtain ⟨as, L, wf⟩ := inv.to_wf
    by_cases h0 : l.size_ = 0
    · exact ⟨h, l, by simp [SingleLinkedList.PopFront, h0], inv⟩
    · obtain ⟨h1, l1, hrun, wf1, _, _⟩ :=
        PopFront_ok h l as L wf (by rw [← wf.1]; omega)
      exact ⟨h1, l1, hrun, SizeInvariant.of_wf wf1⟩
  · intro h l i pos v inv hi hpos
    obtain ⟨as, L, wf⟩ := inv.to_wf
    have hiL : i ≤ L.length := by rw [← wf.1]; exact hi
    have hp : pos = position as i := by
      rw [advance_before_begin wf i (by omega)] at hpos
      exact (Except.ok.inj hpos).symm
    subst hp
    cases hpick : A.pick h with
    | none =>
      left
      have hinc := inc_position wf i hiL
      cases hr : read_next h l (position as i).node_ with
      | none => simp [BasicIterator.inc, hr] at hinc
      | some nxt => simp [SingleLinkedList.InsertAfter, hr, new_node_none hpick]
    | some a =>
      obtain ⟨h1, l1, _, hrun, wf1, _⟩ := InsertAfter_ok A h l as L i v a wf hiL hpick
      exact Or.inr ⟨h1, l1, _, hrun, SizeInvariant.of_wf wf1⟩
  · intro h l i pos inv hi hpos
    obtain ⟨as, L, wf⟩ := inv.to_wf
    have hiL : i < L.length := by rw [← wf.1]; exact hi
    have hp : pos = position as i := by
      rw [advance_before_begin wf i (by omega)] at hpos
      exact (Except.ok.inj hpos).symm
    subst hp
    obtain ⟨h1, l1, hrun, wf1, _⟩ := EraseAfter_ok h l as L i wf hiL
    exact ⟨h1, l1, _, hrun, SizeInvariant.of_wf wf1⟩
  · intro fuel h l inv hf
    obtain ⟨as, L, wf⟩ := inv.to_wf
    obtain ⟨h1, hrun, _, _⟩ := Clear_ok h l as L wf.2 fuel (by rw [← wf.1]; exact hf)
    exact ⟨h1, _, hrun, ⟨[], ([] : List α), rfl, rfl⟩⟩
  · intro fuel m this rhs as bs La Lb wfa wfb hsep hfa hfb
    by_cases hd : this = rhs
    · exact ⟨m, Or.inl (by simp [operator_assign, hd]), SizeInvariant.of_wf wfa,
        SizeInvariant.of_wf wfb⟩
    · rcases operator_assign_ok A fuel m this rhs as bs La Lb hd wfa wfb (hsep hd) hfa hfb with
        ⟨h1, _, hrun, hframe⟩ | ⟨m1, cs, hrun, wf1, wf2, _⟩
      · exact ⟨⟨h1, m.lists⟩, Or.inr hrun, SizeInvariant.of_wf (wfa.keep hframe),
          SizeInvariant.of_wf (wfb.keep hframe)⟩
      · exact ⟨m1, Or.inl hrun, SizeInvariant.of_wf wf1, SizeInvariant.of_wf wf2⟩
  · intro m a b inva invb
    obtain ⟨hh, ha, hb, _⟩ := member_swap_ok m a b
    have hh1 : (swap m a b).heap = m.heap := hh
    have ha1 : (swap m a b).lists a = m.lists b := ha
    have hb1 : (swap m a b).lists b = m.lists a := hb
    rw [hh1, ha1, hb1]
    exact ⟨invb, inva⟩

/-- C16 at the list {1, 2, 3}: the invariant holds there, and `PopFront()`
returns a state in which it holds again. -/
theorem size_invariant_spec_witness :
    SizeInvariant demo_heap demo_list ∧
    ∃ h1 l1, demo_list.PopFront demo_heap = Outcome.ok (h1, l1) () ∧ SizeInvariant h1 l1 :=
  ⟨SizeInvariant.of_wf demo_wf,
    (size_invariant_spec demo_alloc).2.2.2.2.1 demo_heap demo_list (SizeInvariant.of_wf demo_wf)⟩

/-- C17: on a well-formed list `begin()` and `cbegin()` are the same iterator,
the one that advancing `before_begin()` once gives; on a non-empty list it
refers to the first node and dereferences to the first element; it equals
`end()` exactly when the list is empty; and `size_` is zero exactly when the
link of the sentinel is null, so the test on `size_` in `begin()` agrees with
that link. -/
theorem begin_spec (h : Heap α) (l : SingleLinkedList) (as : List Addr) (L : List α)
    (wf : WellFormed h l as L) :
    l.cbegin = l.begin ∧ l.cend = l.end_ ∧ l.cbefore_begin = l.before_begin ∧
    l.begin = ⟨l.head_.next_node.toPtr⟩ ∧
    l.before_begin.inc h l = Except.ok l.begin ∧
    advance h l 1 l.before_begin = Except.ok l.begin ∧
    (∀ x xs, L = x :: xs → l.begin = ⟨Link.toPtr as[0]?⟩ ∧ l.begin ≠ l.end_ ∧
      l.begin.deref h = Except.ok x) ∧
    (l.begin = l.end_ ↔ L = []) ∧ (l.begin = l.end_ ↔ l.IsEmpty = true) ∧
    (l.size_ = 0 ↔ l.head_.next_node = none) := by
  have hb := begin_of_wf wf
  have hlen := Seg.length_eq wf.2
  have hhead := Chain.head_eq wf.2
  have hpos1 : position as 1 = l.begin := by
    rw [hb, hhead]
    rfl
  have hzero : l.size_ = 0 ↔ l.head_.next_node = none := by
    rw [hhead, wf.1, ← hlen]
    cases as with
    | nil => simp
    | cons a as => simp
  have hnil : l.begin = l.end_ ↔ L = [] := by
    rw [hb, hhead]
    cases as with
    | nil =>
      have : L = [] := List.length_eq_zero.mp (by rw [← hlen]; rfl)
      simp [this, SingleLinkedList.end_]
    | cons a as =>
      have : L ≠ [] := fun e => by rw [e] at hlen; simp at hlen
      simp [this, SingleLinkedList.end_]
  refine ⟨rfl, rfl, rfl, hb, ?_, ?_, ?_, hnil, ?_, hzero⟩
  · have := inc_position wf 0 (Nat.zero_le _)
    rw [hpos1] at this
    exact this
  · have := advance_before_begin wf 1 (by omega)
    rw [hpos1] at this
    exact this
  · intro x xs hL
    have hd := deref_position wf 0 x (by rw [hL]; simp)
    rw [hpos1] at hd
    refine ⟨by rw [← hpos1]; rfl, ?_, hd⟩
    intro e
    have := hnil.mp e
    rw [hL] at this
    cases this
  · rw [hnil, SingleLinkedList.IsEmpty, wf.1]
    cases L with
    | nil => simp
    | cons x xs => simp

/-- C17 at the list {1, 2, 3}: `begin()` is the node at address 0, it is what
`before_begin()` advanced once gives, and it dereferences to 1. -/
theorem begin_spec_witness :
    demo_list.begin = ⟨Ptr.node (addr 0)⟩ ∧ demo_list.cbegin = demo_list.begin ∧
    demo_list.before_begin.inc demo_heap demo_list = Except.ok demo_list.begin ∧
    demo_list.begin.deref demo_heap = Except.ok 1 ∧ demo_list.begin ≠ demo_list.end_ :=
  match begin_spec demo_heap demo_list _ _ demo_wf with
  | ⟨hc, _, _, _, hinc, _, hfirst, _, _, _⟩ =>
    ⟨rfl, hc, hinc, (hfirst 1 [2, 3] rfl).2.2, (hfirst 1 [2, 3] rfl).2.1⟩

/-- C18: on a well-formed list, `InsertAfter(pos, v)` at a valid position
(`before_begin()` advanced `i ≤ k` times) followed by `EraseAfter(pos)` gives
back the original list object on the original nodes, with the original element
sequence and size, and `EraseAfter` returns the original successor of `pos`
(`end()` when `pos` was last). In particular `PushFront(v)` followed by
`EraseAfter(before_begin())` or by `PopFront()` gives back the previous
sequence. The allocation is taken to succeed. -/
theorem insert_erase_round_trip (A : Allocator α) (h : Heap α) (l : SingleLinkedList)
    (as : List Addr) (L : List α) (i : Nat) (pos : BasicIterator) (v : α) (a : Addr)
    (wf : WellFormed h l as L) (hi : i ≤ L.length)
    (hpos : advance h l i l.before_begin = Except.ok pos) (halloc : A.pick h = some a) :
    (∃ h1 l1 r1, l.InsertAfter A h pos v = Outcome.ok (h1, l1) r1 ∧
      ∃ h2 l2 ret, l1.EraseAfter h1 pos = Outcome.ok (h2, l2) ret ∧
        WellFormed h2 l2 as L ∧ l2 = l ∧ l2.GetSize = l.GetSize ∧
        (∀ f, L.length < f → l2.iterate f h2 = Except.ok L) ∧
        pos.inc h l = Except.ok ret ∧ (i = L.length → ret = l.end_)) ∧
    (∃ h3 l3, l.PushFront A h v = Outcome.ok (h3, l3) () ∧
      (∃ h4 l4 r, l3.EraseAfter h3 l3.before_begin = Outcome.ok (h4, l4) r ∧
        WellFormed h4 l4 as L ∧ ∀ f, L.length < f → l4.iterate f h4 = Except.ok L) ∧
      (∃ h5 l5, l3.PopFront h3 = Outcome.ok (h5, l5) () ∧
        WellFormed h5 l5 as L ∧ ∀ f, L.length < f → l5.iterate f h5 = Except.ok L)) := by
  have hlen := Seg.length_eq wf.2
  have hp : pos = position as i := by
    rw [advance_before_begin wf i (by omega)] at hpos
    exact (Except.ok.inj hpos).symm
  subst hp
  constructor
  · obtain ⟨h1, l1, r1, hrun, h2, hrun2, wf2⟩ := insert_erase_ok A h l as L i v a wf hi halloc
    refine ⟨h1, l1, r1, hrun, h2, l, position as (i + 1), hrun2, wf2, rfl, rfl,
      fun f hf => iterate_of_wf wf2 f hf, inc_position wf i hi, ?_⟩
    intro hik
    have : as[i]? = none := List.getElem?_eq_none (by omega)
    simp [position, this, SingleLinkedList.end_]
  · obtain ⟨hrun, wf1⟩ := PushFront_ok A h l as L v a wf halloc
    refine ⟨_, _, hrun, ?_, ?_⟩
    · obtain ⟨h4, l4, hrun4, wf4, _⟩ := EraseAfter_ok _ _ _ _ 0 wf1 (by simp)
      have wf4b : WellFormed h4 l4 as L := by simpa using wf4
      exact ⟨h4, l4, _, hrun4, wf4b, fun f hf => iterate_of_wf wf4b f hf⟩
    · obtain ⟨h5, l5, hrun5, wf5, _⟩ := PopFront_ok _ _ _ _ wf1 (by simp)
      have wf5b : WellFormed h5 l5 as L := by simpa using wf5
      exact ⟨h5, l5, hrun5, wf5b, fun f hf => iterate_of_wf wf5b f hf⟩

/-- C18 at the list {1, 2, 3}: inserting 9 after the second element and erasing
there restores the list object, which iterates as {1, 2, 3} again; and after
`PushFront(9)` both `EraseAfter(before_begin())` and `PopFront()` bring the
list back to {1, 2, 3}. -/
theorem insert_erase_round_trip_witness :
    (∃ h1 l1 r1, demo_list.InsertAfter demo_alloc demo_heap ⟨Ptr.node (addr 1)⟩ 9
        = Outcome.ok (h1, l1) r1 ∧
      ∃ h2 l2 ret, l1.EraseAfter h1 ⟨Ptr.node (addr 1)⟩ = Outcome.ok (h2, l2) ret ∧
        l2 = demo_list ∧ l2.iterate 4 h2 = Except.ok [1, 2, 3]) ∧
    (∃ h3 l3, demo_list.PushFront demo_alloc demo_heap 9 = Outcome.ok (h3, l3) () ∧
      (∃ h4 l4 r, l3.EraseAfter h3 l3.before_begin = Outcome.ok (h4, l4) r ∧
        l4.iterate 4 h4 = Except.ok [1, 2, 3]) ∧
      (∃ h5 l5, l3.PopFront h3 = Outcome.ok (h5, l5) () ∧
        l5.iterate 4 h5 = Except.ok [1, 2, 3])) :=
  match insert_erase_round_trip demo_alloc demo_heap demo_list _ _ 2 ⟨Ptr.node (addr 1)⟩ 9
    (addr 3) demo_wf (by decide) rfl rfl with
  | ⟨⟨h1, l1, r1, hrun, h2, l2, ret, hrun2, _, hsame, _, hit, _, _⟩,
      ⟨h3, l3, hpush, ⟨h4, l4, r, hrun4, _, hit4⟩, ⟨h5, l5, hrun5, _, hit5⟩⟩⟩ =>
    ⟨⟨h1, l1, r1, hrun, h2, l2, ret, hrun2, hsame, hit 4 (by decide)⟩,
      ⟨h3, l3, hpush, ⟨h4, l4, r, hrun4, hit4 4 (by decide)⟩,
        ⟨h5, l5, hrun5, hit5 4 (by decide)⟩⟩⟩

/-- C19: `operator==` on two well-formed lists never reads or advances through
a null or dangling pointer, whatever the fuel: when the sizes differ it
returns false without entering the loop; when they are equal the loop makes
exactly `d` full passes and returns false in the next one, `d` being the index
of the first difference, or exactly `size` full passes and then returns true
when there is no difference (one unit of fuel pays for one evaluation of the
loop condition, so `d` or `size` units are too few and one more is enough). -/
theorem operator_eq_safe (ne : α → α → Bool) (fuel : Nat) (h : Heap α)
    (a b : SingleLinkedList) (as bs : List Addr) (La Lb : List α)
    (wfa : WellFormed h a as La) (wfb : WellFormed h b bs Lb) :
    operator_eq ne fuel h a b ≠ Except.error Fault.undefined ∧
    (a.GetSize ≠ b.GetSize → operator_eq ne fuel h a b = Except.ok false) ∧
    (a.GetSize = b.GetSize →
      (∀ d, first_diff ne La Lb = some d → d < La.length ∧ d < Lb.length ∧
        (fuel ≤ d → operator_eq ne fuel h a b = Except.error Fault.out_of_fuel) ∧
        (d < fuel → operator_eq ne fuel h a b = Except.ok false)) ∧
      (first_diff ne La Lb = none →
        (fuel ≤ La.length → operator_eq ne fuel h a b = Except.error Fault.out_of_fuel) ∧
        (La.length < fuel → operator_eq ne fuel h a b = Except.ok true))) := by
  have hrun := operator_eq_chain ne wfa wfb fuel
  have hsa : a.GetSize = La.length := wfa.1
  have hsb : b.GetSize = Lb.length := wfb.1
  rw [hsa, hsb]
  refine ⟨?_, ?_, ?_⟩
  · rw [hrun]
    split
    · simp
    · split <;> simp
  · intro hlen
    rw [hrun, if_pos hlen]
  · intro hlen
    rw [if_neg (by simpa using hlen)] at hrun
    constructor
    · intro d hd
      have hlt := first_diff_lt ne La Lb d hd
      rw [hd] at hrun
      refine ⟨hlt, by omega, ?_, ?_⟩
      · intro hf
        rw [hrun, if_neg (by simpa using hf)]
      · intro hf
        rw [hrun, if_pos (by simpa using hf)]
        rfl
    · intro hnone
      rw [hnone] at hrun
      constructor
      · intro hf
        rw [hrun, if_neg (by simpa using hf)]
      · intro hf
        rw [hrun, if_pos (by simpa using hf)]
        rfl

/-- C19 at the lists {1, 2} and {1, 3}, which first differ at index 1: one unit
of fuel is too little, two are enough and give false; against {1, 3, 5}, of
another size, the answer is false with no fuel at all. -/
theorem operator_eq_safe_witness :
    operator_eq (fun x y => x != y) 1 cmp_heap cmp_a cmp_b = Except.error Fault.out_of_fuel ∧
    operator_eq (fun x y => x != y) 2 cmp_heap cmp_a cmp_b = Except.ok false ∧
    operator_eq (fun x y => x != y) 0 cmp_heap cmp_a cmp_c = Except.ok false ∧
    operator_eq (fun x y => x != y) 2 cmp_heap cmp_a cmp_a = Except.error Fault.out_of_fuel ∧
    operator_eq (fun x y => x != y) 3 cmp_heap cmp_a cmp_a = Except.ok true :=
  ⟨((operator_eq_safe (fun x y => x != y) 1 cmp_heap cmp_a cmp_b _ _ _ _ cmp_wf.1
      cmp_wf.2.1).2.2 rfl).1 1 (by decide) |>.2.2.1 (by decide),
    rfl, rfl, rfl, rfl⟩

/-- C20: over a linearly ordered element type, on well-formed lists `a`, `b`,
`c` (with more fuel than any of them has elements) the comparisons return,
exactly one of `a < b`, `a == b`, `b < a` is true, `a < a` is false, and
`a < b` together with `b < c` gives `a < c`. -/
theorem operator_lt_strict_total_order [LinearOrder α] (fuel : Nat) (h : Heap α)
    (a b c : SingleLinkedList) (as bs cs : List Addr) (La Lb Lc : List α)
    (wfa : WellFormed h a as La) (wfb : WellFormed h b bs Lb) (wfc : WellFormed h c cs Lc)
    (hfa : La.length < fuel) (hfb : Lb.length < fuel) (hfc : Lc.length < fuel) :
    ∃ ab ba e aa bc ac,
      operator_lt elem_lt elem_gt fuel h a b = Except.ok ab ∧
      operator_lt elem_lt elem_gt fuel h b a = Except.ok ba ∧
      operator_eq elem_ne fuel h a b = Except.ok e ∧
      operator_lt elem_lt elem_gt fuel h a a = Except.ok aa ∧
      operator_lt elem_lt elem_gt fuel h b c = Except.ok bc ∧
      operator_lt elem_lt elem_gt fuel h a c = Except.ok ac ∧
      ((ab = true ∧ e = false ∧ ba = false) ∨ (ab = false ∧ e = true ∧ ba = false) ∨
        (ab = false ∧ e = false ∧ ba = true)) ∧
      aa = false ∧ (ab = true → bc = true → ac = true) := by
  obtain ⟨h1, h2, h3⟩ := compare_ok wfa wfb fuel hfa hfb
  obtain ⟨h4, _, _⟩ := compare_ok wfa wfa fuel hfa hfa
  obtain ⟨h5, _, _⟩ := compare_ok wfb wfc fuel hfb hfc
  obtain ⟨h6, _, _⟩ := compare_ok wfa wfc fuel hfa hfc
  refine ⟨_, _, _, _, _, _, h1, h2, h3, h4, h5, h6, ?_, ?_, lexLt_trans La Lb Lc⟩
  · rcases lexLt_trichotomy La Lb with ⟨t1, t2, t3⟩ | ⟨t1, t2, t3⟩ | ⟨t1, t2, t3⟩
    · exact Or.inl ⟨t1, by simpa using t2, t3⟩
    · exact Or.inr (Or.inl ⟨t1, by simpa using t2, t3⟩)
    · exact Or.inr (Or.inr ⟨t1, by simpa using t2, t3⟩)
  · rcases lexLt_trichotomy La La with ⟨_, t2, _⟩ | ⟨t1, _, _⟩ | ⟨t1, _, _⟩
    · exact absurd rfl t2
    · exact t1
    · exact t1

/-- C20 at the lists {1, 2}, {1, 3} and {1, 3, 5}: {1, 2} < {1, 3} < {1, 3, 5}
and {1, 2} < {1, 3, 5}, while `==` and the converse are false and {1, 2} is
not less than itself. -/
theorem operator_lt_strict_total_order_witness :
    operator_lt elem_lt elem_gt 4 cmp_heap cmp_a cmp_b = Except.ok true ∧
    operator_lt elem_lt elem_gt 4 cmp_heap cmp_b cmp_a = Except.ok false ∧
    operator_eq elem_ne 4 cmp_heap cmp_a cmp_b = Except.ok false ∧
    operator_lt elem_lt elem_gt 4 cmp_heap cmp_a cmp_a = Except.ok false ∧
    operator_lt elem_lt elem_gt 4 cmp_heap cmp_b cmp_c = Except.ok true ∧
    operator_lt elem_lt elem_gt 4 cmp_heap cmp_a cmp_c = Except.ok true ∧
    ∃ ab bc ac,
      operator_lt elem_lt elem_gt 4 cmp_heap cmp_a cmp_b = Except.ok ab ∧
      operator_lt elem_lt elem_gt 4 cmp_heap cmp_b cmp_c = Except.ok bc ∧
      operator_lt elem_lt elem_gt 4 cmp_heap cmp_a cmp_c = Except.ok ac ∧
      (ab = true → bc = true → ac = true) :=
  ⟨rfl, rfl, rfl, rfl, rfl, rfl,
    match operator_lt_strict_total_order 4 cmp_heap cmp_a cmp_b cmp_c _ _ _ _ _ _
      cmp_wf.1 cmp_wf.2.1 cmp_wf.2.2 (by decide) (by decide) (by decide) with
    | ⟨ab, _, _, _, bc, ac, h1, _, _, _, h5, h6, _, _, htr⟩ => ⟨ab, bc, ac, h1, h5, h6, htr⟩⟩

end Claims

end SLL
